import Mathlib

/-!
Verification of the valorstone schema-designer / docs core (`src/app.py`).

Python dictionaries are embedded as association lists `List (String × α)`
in insertion order.  `dget` is `d.get(k)` (first matching key), `dset` is
`d[k] = v` (update in place if the key exists, append otherwise), and
`dpop` is `d.pop(k)`.  HTTP `abort` codes become the explicit error type
`ApiError`, and `gen_id` becomes an explicit supply of identifiers.
-/

namespace Valorstone

/-- Python `d.get(k)`: the value at the first matching key, if any. -/
def dget {α : Type} (l : List (String × α)) (k : String) : Option α :=
  match l with
  | [] => none
  | (k', v) :: rest => if k' = k then some v else dget rest k

/-- Python `d[k] = v`: replace the value in place when the key is present,
append a fresh binding otherwise. -/
def dset {α : Type} (l : List (String × α)) (k : String) (v : α) :
    List (String × α) :=
  match l with
  | [] => [(k, v)]
  | (k', v') :: rest =>
      if k' = k then (k', v) :: rest else (k', v') :: dset rest k v

/-- Python `d.pop(k)`: drop every binding of the key (at most one binding
exists for a genuine dict). -/
def dpop {α : Type} (l : List (String × α)) (k : String) : List (String × α) :=
  l.filter (fun p => p.1 ≠ k)

/-- The keys of an embedded dict, in insertion order. -/
def dkeys {α : Type} (l : List (String × α)) : List String :=
  l.map (fun p => p.1)

theorem dget_dpop_self {α : Type} (l : List (String × α)) (k : String) :
    dget (dpop l k) k = none := by
  induction l with
  | nil => rfl
  | cons p rest ih =>
      obtain ⟨a, b⟩ := p
      by_cases h : a = k
      · simpa [dpop, h] using ih
      · simpa [dpop, dget, h] using ih

theorem mem_dkeys_cons {α : Type} {p : String × α} {rest : List (String × α)}
    {k : String} : k ∈ dkeys (p :: rest) ↔ (k = p.1 ∨ k ∈ dkeys rest) := by
  simp [dkeys]

theorem dget_dpop_ne {α : Type} (l : List (String × α)) (k k' : String)
    (h : k' ≠ k) : dget (dpop l k) k' = dget l k' := by
  induction l with
  | nil => rfl
  | cons p rest ih =>
      obtain ⟨a, b⟩ := p
      by_cases hp : a = k
      · simpa [dpop, dget, hp, Ne.symm h] using ih
      · by_cases hp' : a = k'
        · simp [dpop, dget, hp, hp', h]
        · simpa [dpop, dget, hp, hp'] using ih

theorem dget_dset_self {α : Type} (l : List (String × α)) (k : String)
    (v : α) : dget (dset l k v) k = some v := by
  induction l with
  | nil => simp [dset, dget]
  | cons p rest ih =>
      obtain ⟨a, b⟩ := p
      by_cases h : a = k
      · simp [dset, dget, h]
      · simpa [dset, dget, h] using ih

theorem dget_dset_ne {α : Type} (l : List (String × α)) (k k' : String)
    (v : α) (h : k' ≠ k) : dget (dset l k v) k' = dget l k' := by
  induction l with
  | nil => simp [dset, dget, Ne.symm h]
  | cons p rest ih =>
      obtain ⟨a, b⟩ := p
      by_cases hp : a = k
      · simp [dset, dget, hp, Ne.symm h]
      · by_cases hp' : a = k'
        · simp [dset, dget, hp, hp', h]
        · simpa [dset, dget, hp, hp'] using ih

theorem dset_eq_append {α : Type} (l : List (String × α)) (k : String)
    (v : α) (h : k ∉ dkeys l) : dset l k v = l ++ [(k, v)] := by
  induction l with
  | nil => rfl
  | cons p rest ih =>
      obtain ⟨a, b⟩ := p
      simp [dkeys] at h
      have ha : a ≠ k := fun hc => h.1 hc.symm
      have : k ∉ dkeys rest := by
        simp [dkeys]
        exact h.2
      simp [dset, ha, ih this]

theorem dget_eq_none_of_not_mem {α : Type} (l : List (String × α))
    (k : String) (h : k ∉ dkeys l) : dget l k = none := by
  induction l with
  | nil => rfl
  | cons p rest ih =>
      obtain ⟨a, b⟩ := p
      simp [dkeys] at h
      have ha : a ≠ k := fun hc => h.1 hc.symm
      have : k ∉ dkeys rest := by
        simp [dkeys]
        exact h.2
      simp [dget, ha, ih this]

theorem dget_mem {α : Type} {l : List (String × α)} {k : String} {v : α}
    (h : dget l k = some v) : (k, v) ∈ l := by
  induction l with
  | nil => simp [dget] at h
  | cons p rest ih =>
      obtain ⟨a, b⟩ := p
      by_cases hp : a = k
      · simp [dget, hp] at h
        subst hp
        subst h
        exact List.mem_cons_self _ _
      · simp [dget, hp] at h
        exact List.mem_cons_of_mem _ (ih h)

theorem dget_append_right {α : Type} (l m : List (String × α)) (k : String)
    (h : k ∉ dkeys l) : dget (l ++ m) k = dget m k := by
  induction l with
  | nil => rfl
  | cons p rest ih =>
      obtain ⟨a, b⟩ := p
      simp [dkeys] at h
      have ha : a ≠ k := fun hc => h.1 hc.symm
      have : k ∉ dkeys rest := by
        simp [dkeys]
        exact h.2
      simp [dget, ha, ih this]

theorem dget_append_left {α : Type} (l m : List (String × α)) (k : String)
    (h : k ∈ dkeys l) : dget (l ++ m) k = dget l k := by
  induction l with
  | nil => simp [dkeys] at h
  | cons p rest ih =>
      obtain ⟨a, b⟩ := p
      by_cases hp : a = k
      · simp [dget, hp]
      · rw [mem_dkeys_cons] at h
        rcases h with h | h
        · exact absurd h.symm hp
        · simpa [dget, hp] using ih h

theorem dkeys_dset_mem {α : Type} (l : List (String × α)) (k : String)
    (v : α) (h : k ∈ dkeys l) : dkeys (dset l k v) = dkeys l := by
  induction l with
  | nil => simp [dkeys] at h
  | cons p rest ih =>
      obtain ⟨a, b⟩ := p
      by_cases hp : a = k
      · simp [dset, dkeys, hp]
      · rw [mem_dkeys_cons] at h
        rcases h with h | h
        · exact absurd h.symm hp
        · have hr := ih h
          simp [dset, dkeys, hp] at hr ⊢
          exact hr

/-- HTTP-level outcomes of `abort` in `app.py`: 401, 404, 400, 403. -/
inductive ApiError : Type
  | unauthorized
  | notFound
  | invalidInput
  | forbidden
deriving Repr, DecidableEq

/-- `Link` dataclass of `app.py`. -/
structure Link where
  id : String
  from_type : String
  from_id : String
  to_type : String
  to_id : String
  note : String := ""
deriving Repr, DecidableEq

/-- `ForeignRef` dataclass of `app.py`. -/
structure ForeignRef where
  table_id : String
  column_id : String
  note : String := ""
deriving Repr, DecidableEq

/-- `Column` dataclass of `app.py` (the optional `default` string is
called `dflt` because of the Lean keyword). -/
structure Column where
  id : String
  name : String
  datatype : String := "TEXT"
  is_primary : Bool := false
  is_nullable : Bool := true
  dflt : Option String := none
  note : String := ""
  foreign_ref : Option ForeignRef := none
  order : Int := 0
deriving Repr, DecidableEq

/-- `Table` dataclass of `app.py`; `columns` is a dict keyed by column id. -/
structure Table where
  id : String
  name : String
  note : String := ""
  columns : List (String × Column) := []
deriving Repr, DecidableEq

/-- `Database` dataclass of `app.py`.  The diagram blob is an opaque
key-value bag owned by the UI; its entries never matter to the engine. -/
structure Database where
  id : String
  name : String
  note : String := ""
  tables : List (String × Table) := []
  links : List (String × Link) := []
  diagram : List (String × String) := []
deriving Repr, DecidableEq

/-- All table ids (dict keys) of a database. -/
def tableIds (db : Database) : List String :=
  dkeys db.tables

/-- All column ids (dict keys) of all tables of a database. -/
def columnIds (db : Database) : List String :=
  (db.tables.map (fun p => dkeys p.2.columns)).flatten

/-- Every id owned by a database: its own id, table ids, column ids and
link ids. -/
def allIds (db : Database) : List String :=
  db.id :: (tableIds db ++ columnIds db ++ dkeys db.links)

/-- `delete_table` of `app.py` (engine part, after the pin/database
lookups): if the table id is present, first drop every link with a
table-typed endpoint equal to `t_id`, then every link with a column-typed
endpoint among the table's column ids, then drop the table itself;
otherwise abort 404. -/
def delete_table (db : Database) (t_id : String) : Except ApiError Database :=
  match dget db.tables t_id with
  | none => .error .notFound
  | some t =>
      let links1 := db.links.filter (fun p =>
        ¬ ((p.2.from_type = "table" ∧ p.2.from_id = t_id) ∨
           (p.2.to_type = "table" ∧ p.2.to_id = t_id)))
      let col_ids := dkeys t.columns
      let links2 := links1.filter (fun p =>
        ¬ ((p.2.from_type = "column" ∧ p.2.from_id ∈ col_ids) ∨
           (p.2.to_type = "column" ∧ p.2.to_id ∈ col_ids)))
      .ok { db with tables := dpop db.tables t_id, links := links2 }

/-- `delete_column` of `app.py` (engine part): if the table and the column
exist, drop every link with a column-typed endpoint equal to `c_id`, then
drop the column from its table; otherwise abort 404. -/
def delete_column (db : Database) (t_id c_id : String) :
    Except ApiError Database :=
  match dget db.tables t_id with
  | none => .error .notFound
  | some t =>
      if (dget t.columns c_id).isSome then
        let links' := db.links.filter (fun p =>
          ¬ ((p.2.from_type = "column" ∧ p.2.from_id = c_id) ∨
             (p.2.to_type = "column" ∧ p.2.to_id = c_id)))
        .ok { db with
              links := links',
              tables := dset db.tables t_id
                { t with columns := dpop t.columns c_id } }
      else .error .notFound

/-- Claim C2, amended.  After a successful `delete_table db t_id`, the
table is gone and no remaining link has a table-typed endpoint equal to
`t_id`, nor a column-typed endpoint among the deleted table's column ids
(the cascade filters compare an endpoint's id only together with its type
tag); when `t_id` is absent the call fails with NotFound, producing no
successor state, so the database is unchanged. -/
theorem delete_table_cascade (db : Database) (t_id : String) :
    (∀ t, dget db.tables t_id = some t →
      ∃ db', delete_table db t_id = Except.ok db' ∧
        dget db'.tables t_id = none ∧
        ∀ p ∈ db'.links,
          ¬ (p.2.from_type = "table" ∧ p.2.from_id = t_id) ∧
          ¬ (p.2.to_type = "table" ∧ p.2.to_id = t_id) ∧
          ¬ (p.2.from_type = "column" ∧ p.2.from_id ∈ dkeys t.columns) ∧
          ¬ (p.2.to_type = "column" ∧ p.2.to_id ∈ dkeys t.columns)) ∧
    (dget db.tables t_id = none →
      delete_table db t_id = Except.error ApiError.notFound) := by
  constructor
  · intro t ht
    simp only [delete_table, ht]
    refine ⟨_, rfl, dget_dpop_self _ _, ?_⟩
    intro p hp
    simp only [List.mem_filter, decide_eq_true_eq] at hp
    obtain ⟨⟨hmem, hf⟩, hg⟩ := hp
    exact ⟨fun hc => hf (Or.inl hc), fun hc => hf (Or.inr hc),
           fun hc => hg (Or.inl hc), fun hc => hg (Or.inr hc)⟩
  · intro h
    simp only [delete_table, h]

/-- The table used by the C2 witness. -/
def c2wt : Table :=
  { id := "t1", name := "T",
    columns := [("c1", { id := "c1", name := "x" })] }

/-- Witness database for `delete_table_cascade`. -/
def c2wdb : Database :=
  { id := "d1", name := "D",
    tables := [("t1", c2wt)],
    links := [("l1", { id := "l1", from_type := "table", from_id := "t1",
                       to_type := "column", to_id := "c1" })] }

/-- Witness: `delete_table_cascade` applied at `c2wdb` and table `t1`. -/
theorem delete_table_cascade_witness :
    ∃ db', delete_table c2wdb "t1" = Except.ok db' ∧
      dget db'.tables "t1" = none ∧
      ∀ p ∈ db'.links,
        ¬ (p.2.from_type = "table" ∧ p.2.from_id = "t1") ∧
        ¬ (p.2.to_type = "table" ∧ p.2.to_id = "t1") ∧
        ¬ (p.2.from_type = "column" ∧ p.2.from_id ∈ dkeys c2wt.columns) ∧
        ¬ (p.2.to_type = "column" ∧ p.2.to_id ∈ dkeys c2wt.columns) :=
  (delete_table_cascade c2wdb "t1").1 c2wt (by rfl)

/-- The mistyped link of the C2 counterexample. -/
def c2xlink : Link :=
  { id := "l1", from_type := "column", from_id := "t1",
    to_type := "column", to_id := "t1" }

/-- The database of the C2 counterexample: one table `t1` with no
columns, and one link whose endpoints carry the id `t1` under the type
tag `column`. -/
def c2xdb : Database :=
  { id := "d1", name := "D",
    tables := [("t1", { id := "t1", name := "T" })],
    links := [("l1", c2xlink)] }

/-- The state `delete_table` produces from `c2xdb`. -/
def c2xdbDel : Database :=
  { id := "d1", name := "D", tables := [], links := [("l1", c2xlink)] }

/-- Counterexample to claim C2 as stated: deleting table `t1` from
`c2xdb` succeeds, yet the surviving link `l1` still has both endpoints
(from and to) referencing the deleted table's id `t1` — the cascade only
drops links whose matching endpoint is tagged `table`, and `l1`'s
endpoints are tagged `column` while `t1` owned no column of that id. -/
theorem delete_table_untyped_counterexample :
    delete_table c2xdb "t1" = Except.ok c2xdbDel ∧
    (∃ p ∈ c2xdbDel.links, p.2.from_id = "t1" ∧ p.2.to_id = "t1") := by
  refine ⟨by rfl, ("l1", c2xlink), ?_, rfl, rfl⟩
  simp [c2xdbDel]

/-- Claim C3, amended.  A successful `delete_column db t_id c_id` drops
every link with a column-typed endpoint equal to `c_id`, removes the
column from its table, and leaves every surviving column — in this table
and in all others — bitwise unchanged; in particular every ForeignRef
stored in another column survives unchanged, including a ForeignRef that
points at the deleted column (a dangling ForeignRef may survive). -/
theorem delete_column_scrub (db : Database) (t_id c_id : String) (t : Table)
    (c : Column) (ht : dget db.tables t_id = some t)
    (hc : dget t.columns c_id = some c) :
    ∃ db', delete_column db t_id c_id = Except.ok db' ∧
      (∀ p ∈ db'.links,
        ¬ (p.2.from_type = "column" ∧ p.2.from_id = c_id) ∧
        ¬ (p.2.to_type = "column" ∧ p.2.to_id = c_id)) ∧
      (∃ t', dget db'.tables t_id = some t' ∧ dget t'.columns c_id = none ∧
        ∀ cid c', dget t'.columns cid = some c' →
          dget t.columns cid = some c') ∧
      (∀ tid, tid ≠ t_id → dget db'.tables tid = dget db.tables tid) := by
  simp only [delete_column, ht, hc, Option.isSome_some, if_true]
  refine ⟨_, rfl, ?_, ?_, ?_⟩
  · intro p hp
    simp only [List.mem_filter, decide_eq_true_eq] at hp
    exact ⟨fun hco => hp.2 (Or.inl hco), fun hco => hp.2 (Or.inr hco)⟩
  · refine ⟨_, dget_dset_self _ _ _, dget_dpop_self _ _, ?_⟩
    intro cid c' hget
    by_cases hcid : cid = c_id
    · rw [hcid, dget_dpop_self] at hget
      exact absurd hget (by simp)
    · rwa [dget_dpop_ne _ _ _ hcid] at hget
  · intro tid htid
    exact dget_dset_ne _ _ _ _ htid

/-- The table used by the C3 witness: column `c2` holds a ForeignRef
pointing at column `c1`. -/
def c3wt : Table :=
  { id := "t1", name := "T",
    columns := [("c1", { id := "c1", name := "x" }),
                ("c2", { id := "c2", name := "y",
                         foreign_ref := some { table_id := "t1",
                                               column_id := "c1" } })] }

/-- Witness database for `delete_column_scrub`. -/
def c3wdb : Database :=
  { id := "d1", name := "D",
    tables := [("t1", c3wt)],
    links := [("l1", { id := "l1", from_type := "column", from_id := "c1",
                       to_type := "table", to_id := "t1" })] }

/-- Witness: `delete_column_scrub` applied at `c3wdb`, table `t1`,
column `c1`; the dangling ForeignRef of `c2` survives. -/
theorem delete_column_scrub_witness :
    ∃ db', delete_column c3wdb "t1" "c1" = Except.ok db' ∧
      (∀ p ∈ db'.links,
        ¬ (p.2.from_type = "column" ∧ p.2.from_id = "c1") ∧
        ¬ (p.2.to_type = "column" ∧ p.2.to_id = "c1")) ∧
      (∃ t', dget db'.tables "t1" = some t' ∧ dget t'.columns "c1" = none ∧
        ∀ cid c', dget t'.columns cid = some c' →
          dget c3wt.columns cid = some c') ∧
      (∀ tid, tid ≠ "t1" → dget db'.tables tid = dget c3wdb.tables tid) :=
  delete_column_scrub c3wdb "t1" "c1" c3wt { id := "c1", name := "x" }
    (by rfl) (by rfl)

/-- The mistyped link of the C3 counterexample. -/
def c3xlink : Link :=
  { id := "l1", from_type := "table", from_id := "c1",
    to_type := "table", to_id := "c1" }

/-- The database of the C3 counterexample: one table `t1` with one column
`c1`, and one link whose endpoints carry the id `c1` under the type tag
`table`. -/
def c3xdb : Database :=
  { id := "d1", name := "D",
    tables := [("t1", { id := "t1", name := "T",
                        columns := [("c1", { id := "c1", name := "x" })] })],
    links := [("l1", c3xlink)] }

/-- The state `delete_column` produces from `c3xdb`. -/
def c3xdbDel : Database :=
  { id := "d1", name := "D",
    tables := [("t1", { id := "t1", name := "T", columns := [] })],
    links := [("l1", c3xlink)] }

/-- Counterexample to claim C3 as stated: deleting column `c1` succeeds,
yet the link `l1`, whose endpoints both carry the id `c1` (tagged
`table`), survives — `delete_column` does not remove every link that
references `C.id` on an endpoint, only those whose endpoint is tagged
`column`. -/
theorem delete_column_untyped_counterexample :
    delete_column c3xdb "t1" "c1" = Except.ok c3xdbDel ∧
    (∃ p ∈ c3xdbDel.links, p.2.from_id = "c1" ∧ p.2.to_id = "c1") := by
  refine ⟨by rfl, ("l1", c3xlink), ?_, rfl, rfl⟩
  simp [c3xdbDel]

/-- `DocNote` dataclass of `app.py`; timestamps are opaque ticks. -/
structure DocNote where
  id : String
  start_line : Int
  end_line : Int
  text : String
  author : String := ""
  created_at : Int := 0
deriving Repr, DecidableEq

/-- `Document` dataclass of `app.py`. -/
structure Document where
  id : String
  name : String
  parent_id : Option String := none
  content : String := ""
  notes : List (String × DocNote) := []
  updated_at : Int := 0
deriving Repr, DecidableEq

/-- `DocFolder` dataclass of `app.py`. -/
structure DocFolder where
  id : String
  name : String
  parent_id : Option String := none
deriving Repr, DecidableEq

/-- `DocShare` dataclass of `app.py`; `id` is the capability token. -/
structure DocShare where
  id : String
  pin : String
  kind : String
  target_id : String
  created_at : Int := 0
deriving Repr, DecidableEq

/-- Python `s.strip()`: drop whitespace from both ends. -/
def pyStrip (s : String) : String :=
  String.mk
    (((s.data.dropWhile Char.isWhitespace).reverse.dropWhile
        Char.isWhitespace).reverse)

/-- The python idiom `(data.get("name") or dflt).strip() or dflt` used by
the create endpoints: a missing or empty name falls back to the default,
and so does a whitespace-only one after stripping. -/
def pyName (dflt : String) (n : Option String) : String :=
  let base := match n with
    | none => dflt
    | some s => if s = "" then dflt else s
  let t := pyStrip base
  if t = "" then dflt else t

/-- The python idiom `data["name"].strip() or old` used by the update
endpoints: an empty or whitespace-only name patch keeps the old name. -/
def pyPatchName (old : String) (n : String) : String :=
  if pyStrip n = "" then old else pyStrip n

/-- One step along a parent chain: the `parent_id` of the folder stored
under `x`, if any. -/
def parentStep (folders : List (String × DocFolder)) (x : String) :
    Option String :=
  (dget folders x).bind (fun f => f.parent_id)

/-- `api_create_folder` of `app.py` (engine part, after the pin check):
`fid` stands for the `gen_id()` result.  A supplied parent must exist
(the empty string counts as absent, python's `or None`); the new folder
is stored under the fresh id. -/
def api_create_folder (folders : List (String × DocFolder)) (fid : String)
    (name : Option String) (parent_id : Option String) :
    Except ApiError (List (String × DocFolder)) :=
  let nm := pyName "New Folder" name
  let pid := match parent_id with
    | some "" => none
    | x => x
  match pid with
  | some p =>
      if p ∉ dkeys folders then .error .invalidInput
      else .ok (dset folders fid { id := fid, name := nm, parent_id := some p })
  | none => .ok (dset folders fid { id := fid, name := nm, parent_id := none })

/-- `api_update_folder` of `app.py` (engine part).  `nameP` models the
presence of a `"name"` key, `parentP` the presence of a `"parent_id"` key
together with its (possibly null) value.  A non-empty new parent must
exist; there is no cycle check of any kind. -/
def api_update_folder (folders : List (String × DocFolder)) (fid : String)
    (nameP : Option String) (parentP : Option (Option String)) :
    Except ApiError (List (String × DocFolder)) :=
  match dget folders fid with
  | none => .error .notFound
  | some f =>
      let f1 := match nameP with
        | none => f
        | some n => { f with name := pyPatchName f.name n }
      match parentP with
      | none => .ok (dset folders fid f1)
      | some none => .ok (dset folders fid { f1 with parent_id := none })
      | some (some p) =>
          if p ≠ "" ∧ p ∉ dkeys folders then .error .invalidInput
          else .ok (dset folders fid { f1 with parent_id := some p })

/-- `api_delete_folder` of `app.py` (engine part): 404 when the folder is
absent, 400 when a document or a *different* folder (the generator guard
`if f.id != fid`) has the target as parent, otherwise the folder is
popped. -/
def api_delete_folder (folders : List (String × DocFolder))
    (documents : List (String × Document)) (fid : String) :
    Except ApiError (List (String × DocFolder)) :=
  if fid ∉ dkeys folders then .error .notFound
  else if documents.any (fun d => d.2.parent_id = some fid) ∨
          folders.any (fun f => f.2.parent_id = some fid ∧ f.2.id ≠ fid) then
    .error .invalidInput
  else .ok (dpop folders fid)

/-- Claim C8, amended.  Deleting folder `fid` fails with NotFound when it
is absent; fails with InvalidInput when some document, or some folder
*other than the target itself* (the source guard `if f.id != fid`), has
`parent_id` equal to `fid`, leaving the tree unchanged (no successor
state is produced); and once no such child remains it succeeds, removing
exactly the target folder. -/
theorem api_delete_folder_guard (folders : List (String × DocFolder))
    (documents : List (String × Document)) (fid : String) :
    (fid ∉ dkeys folders →
      api_delete_folder folders documents fid =
        Except.error ApiError.notFound) ∧
    (fid ∈ dkeys folders →
      (((∃ p ∈ documents, p.2.parent_id = some fid) ∨
        (∃ p ∈ folders, p.2.parent_id = some fid ∧ p.2.id ≠ fid)) →
        api_delete_folder folders documents fid =
          Except.error ApiError.invalidInput) ∧
      ((∀ p ∈ documents, p.2.parent_id ≠ some fid) →
       (∀ p ∈ folders, p.2.parent_id = some fid → p.2.id = fid) →
        api_delete_folder folders documents fid =
          Except.ok (dpop folders fid) ∧
        dget (dpop folders fid) fid = none ∧
        ∀ k, k ≠ fid → dget (dpop folders fid) k = dget folders k)) := by
  refine ⟨fun h => ?_, fun h => ⟨fun hex => ?_, fun hd hf => ?_⟩⟩
  · rw [api_delete_folder, if_pos h]
  · have hcond : (documents.any (fun d => d.2.parent_id = some fid) = true ∨
        folders.any
          (fun f => f.2.parent_id = some fid ∧ f.2.id ≠ fid) = true) := by
      simp only [List.any_eq_true, decide_eq_true_eq]
      rcases hex with ⟨p, hp, hpar⟩ | ⟨p, hp, hpar, hid⟩
      · exact Or.inl ⟨p, hp, hpar⟩
      · exact Or.inr ⟨p, hp, hpar, hid⟩
    rw [api_delete_folder, if_neg (by simp [h]), if_pos hcond]
  · have hno : ¬ (documents.any (fun d => d.2.parent_id = some fid) = true ∨
        folders.any
          (fun f => f.2.parent_id = some fid ∧ f.2.id ≠ fid) = true) := by
      simp only [List.any_eq_true, decide_eq_true_eq]
      rintro (⟨p, hp, hpar⟩ | ⟨p, hp, hpar, hid⟩)
      · exact hd p hp hpar
      · exact hid (hf p hp hpar)
    rw [api_delete_folder, if_neg (by simp [h]), if_neg hno]
    exact ⟨rfl, dget_dpop_self _ _,
      fun k hk => dget_dpop_ne _ _ _ hk⟩

/-- Witness: `api_delete_folder_guard` instantiated at a folder `a` with
a child folder `b` (deletion blocked) and at the same folder without the
child (deletion succeeds). -/
theorem api_delete_folder_guard_witness :
    api_delete_folder
      [("a", { id := "a", name := "A" }),
       ("b", { id := "b", name := "B", parent_id := some "a" })] [] "a" =
      Except.error ApiError.invalidInput ∧
    api_delete_folder [("a", { id := "a", name := "A" })] [] "a" =
      Except.ok (dpop [("a", { id := "a", name := "A" })] "a") := by
  constructor
  · exact ((api_delete_folder_guard
      [("a", { id := "a", name := "A" }),
       ("b", { id := "b", name := "B", parent_id := some "a" })] [] "a").2
      (by decide)).1
      (Or.inr ⟨("b", { id := "b", name := "B", parent_id := some "a" }),
        by decide, rfl, by decide⟩)
  · exact (((api_delete_folder_guard
      [("a", { id := "a", name := "A" })] [] "a").2
      (by decide)).2 (by simp) (by decide)).1

/-- The self-parented folder of the C8 counterexample. -/
def c8xfolder : DocFolder := { id := "a", name := "A", parent_id := some "a" }

/-- Counterexample to claim C8 as stated: in a tree holding exactly one
folder `a` whose `parent_id` is `a` itself, *a folder does have parent_id
equal to the target folder's id*, yet `api_delete_folder` succeeds
instead of failing with InvalidInput — the source guard skips the target
itself (`if f.id != fid`). -/
theorem delete_folder_self_parent_counterexample :
    (∃ p ∈ [("a", c8xfolder)], p.2.parent_id = some "a") ∧
    api_delete_folder [("a", c8xfolder)] [] "a" = Except.ok [] := by
  exact ⟨⟨("a", c8xfolder), by simp, rfl⟩, rfl⟩

/-- Claim C5, amended.  The folder store does not maintain acyclicity:
`api_update_folder` validates only that a non-empty new parent id names
an existing folder, so an accepted update may set a folder's `parent_id`
to the folder itself (or to any of its descendants), after which the
parent chain returns to its start in one step. -/
theorem api_update_folder_self_parent (folders : List (String × DocFolder))
    (fid : String) (f : DocFolder) (h : dget folders fid = some f) :
    api_update_folder folders fid none (some (some fid)) =
      Except.ok (dset folders fid { f with parent_id := some fid }) ∧
    parentStep (dset folders fid { f with parent_id := some fid }) fid =
      some fid := by
  have hmem : fid ∈ dkeys folders := by
    have hm := dget_mem h
    exact List.mem_map_of_mem (fun p => p.1) hm
  constructor
  · rw [api_update_folder, h]
    simp only [if_neg (by simp [hmem] :
      ¬ (fid ≠ "" ∧ fid ∉ dkeys folders))]
  · rw [parentStep, dget_dset_self]
    rfl

/-- Witness: `api_update_folder_self_parent` at the one-folder tree. -/
theorem api_update_folder_self_parent_witness :
    api_update_folder [("a", { id := "a", name := "A" })] "a" none
        (some (some "a")) =
      Except.ok (dset [("a", { id := "a", name := "A" })] "a"
        { id := "a", name := "A", parent_id := some "a" }) ∧
    parentStep (dset [("a", { id := "a", name := "A" })] "a"
        { id := "a", name := "A", parent_id := some "a" }) "a" =
      some "a" :=
  api_update_folder_self_parent [("a", { id := "a", name := "A" })] "a"
    { id := "a", name := "A" } rfl

/-- The folder records of the C5 counterexample. -/
def c5f0 : DocFolder := { id := "a", name := "A" }

/-- The folder after the cycle-creating update of the C5 counterexample. -/
def c5f1 : DocFolder := { id := "a", name := "A", parent_id := some "a" }

/-- Counterexample to claim C5 as stated: the store accepts the sequence
"create folder `a` at root, then update `a` with parent_id `a`", and in
the resulting tree the parent chain starting at `a` returns to `a` after
one step — a cycle created by accepted operations only. -/
theorem folder_cycle_counterexample :
    api_create_folder [] "a" (some "A") none = Except.ok [("a", c5f0)] ∧
    api_update_folder [("a", c5f0)] "a" none (some (some "a")) =
      Except.ok [("a", c5f1)] ∧
    parentStep [("a", c5f1)] "a" = some "a" := by
  refine ⟨?_, ?_, rfl⟩
  · rfl
  · rfl

/-- Request payload of `create_column` in `app.py`.  The handler reads no
`order` field at all, so the payload has none: a creation request can
never set an explicit order. -/
structure ColumnPayload where
  name : Option String := none
  datatype : Option String := none
  is_primary : Option Bool := none
  is_nullable : Option Bool := none
  dflt : Option String := none
  note : Option String := none
  foreign_ref : Option ForeignRef := none
deriving Repr, DecidableEq

/-- `create_column` of `app.py` (engine part): a supplied foreign_ref is
kept only when both ids are non-empty (python truthiness, not validated
against existence); the new column's order is one more than the maximum
existing order, or 0 for a table without columns; the new column is
stored under the fresh id `c_id`. -/
def create_column (db : Database) (t_id c_id : String)
    (data : ColumnPayload) : Except ApiError Database :=
  match dget db.tables t_id with
  | none => .error .notFound
  | some t =>
      let nm := pyName "column" data.name
      let fr : Option ForeignRef := match data.foreign_ref with
        | some r =>
            if r.table_id ≠ "" ∧ r.column_id ≠ "" then some r else none
        | none => none
      let next_order : Int :=
        match (t.columns.map (fun p => p.2.order)).maximum with
        | some m => m + 1
        | none => 0
      let col : Column :=
        { id := c_id, name := nm,
          datatype := data.datatype.getD "TEXT",
          is_primary := data.is_primary.getD false,
          is_nullable := data.is_nullable.getD true,
          dflt := data.dflt,
          note := data.note.getD "",
          foreign_ref := fr,
          order := next_order }
      let t1 : Table := { t with columns := dset t.columns c_id col }
      .ok { db with tables := dset db.tables t_id t1 }

/-- A sequence of `create_column` calls against one table, each with its
`gen_id()` result and payload. -/
def create_columns_seq (db : Database) (t_id : String) :
    List (String × ColumnPayload) → Except ApiError Database
  | [] => .ok db
  | (cid, data) :: rest =>
      match create_column db t_id cid data with
      | .ok db' => create_columns_seq db' t_id rest
      | .error e => .error e

/-- The integer list `[0, 1, ..., n-1]`. -/
def rangeInt (n : Nat) : List Int :=
  (List.range n).map (fun i => (i : Int))

theorem rangeInt_succ (n : Nat) :
    rangeInt (n + 1) = rangeInt n ++ [(n : Int)] := by
  simp [rangeInt, List.range_succ]

theorem mem_rangeInt_lt (n : Nat) : ∀ b ∈ rangeInt n, b < (n : Int) := by
  induction n with
  | zero =>
      intro b hb
      simp [rangeInt] at hb
  | succ k ih =>
      intro b hb
      rw [rangeInt_succ] at hb
      rcases List.mem_append.mp hb with h | h
      · have hk := ih b h
        push_cast
        omega
      · rw [List.mem_singleton] at h
        subst h
        push_cast
        omega

theorem maximum_rangeInt (n : Nat) :
    (rangeInt (n + 1)).maximum = some (n : Int) := by
  have : (rangeInt (n + 1)).maximum = ((n : Int) : WithBot Int) := by
    rw [List.maximum_eq_coe_iff]
    constructor
    · rw [rangeInt_succ]
      exact List.mem_append_right _ (List.mem_singleton_self _)
    · intro b hb
      have hlt := mem_rangeInt_lt (n + 1) b hb
      push_cast at hlt
      omega
  exact this

theorem dkeys_append {α : Type} (l m : List (String × α)) :
    dkeys (l ++ m) = dkeys l ++ dkeys m := by
  simp [dkeys]

theorem create_column_ok (db : Database) (t_id c_id : String)
    (data : ColumnPayload) (t : Table) (ht : dget db.tables t_id = some t) :
    ∃ col : Column,
      create_column db t_id c_id data =
        Except.ok { db with tables := dset db.tables t_id { t with columns := dset t.columns c_id col } } ∧
      col.order = (match (t.columns.map (fun p => p.2.order)).maximum with
        | some m => m + 1
        | none => 0) := by
  simp only [create_column, ht]
  exact ⟨_, rfl, rfl⟩

theorem create_columns_seq_spec (t_id : String)
    (ids : List (String × ColumnPayload)) :
    ∀ (db : Database) (t : Table),
      dget db.tables t_id = some t →
      (dkeys t.columns ++ ids.map (fun p => p.1)).Nodup →
      t.columns.map (fun p => p.2.order) = rangeInt t.columns.length →
      ∃ db' t', create_columns_seq db t_id ids = Except.ok db' ∧
        dget db'.tables t_id = some t' ∧
        dkeys t'.columns = dkeys t.columns ++ ids.map (fun p => p.1) ∧
        t'.columns.map (fun p => p.2.order) = rangeInt t'.columns.length ∧
        t'.columns.length = t.columns.length + ids.length := by
  induction ids with
  | nil =>
      intro db t ht _ hord
      exact ⟨db, t, rfl, ht, by simp, hord, by simp⟩
  | cons hd rest ih =>
      intro db t ht hnd hord
      obtain ⟨cid, data⟩ := hd
      have hcid : cid ∉ dkeys t.columns := by
        have hdisj := List.disjoint_of_nodup_append hnd
        exact fun hc => hdisj hc (by simp)
      obtain ⟨col, heq, hordcol⟩ := create_column_ok db t_id cid data t ht
      have hmax : col.order = (t.columns.length : Int) := by
        rw [hordcol, hord]
        cases hn : t.columns.length with
        | zero => simp [rangeInt]
        | succ k =>
            rw [maximum_rangeInt k]
            push_cast
            ring
      have happ : dset t.columns cid col = t.columns ++ [(cid, col)] :=
        dset_eq_append _ _ _ hcid
      have ht1 : dget (dset db.tables t_id
          { t with columns := dset t.columns cid col }) t_id =
          some { t with columns := dset t.columns cid col } :=
        dget_dset_self _ _ _
      have hk1 : dkeys (dset t.columns cid col) = dkeys t.columns ++ [cid] := by
        rw [happ, dkeys_append]
        rfl
      have hl1 : (dset t.columns cid col).length = t.columns.length + 1 := by
        rw [happ]
        simp
      have hord1 : (dset t.columns cid col).map (fun p => p.2.order) =
          rangeInt (t.columns.length + 1) := by
        rw [happ, List.map_append, hord, rangeInt_succ]
        simp [hmax]
      have hnd1 : (dkeys (dset t.columns cid col) ++
          rest.map (fun p => p.1)).Nodup := by
        rw [hk1, List.append_assoc]
        simpa using hnd
      obtain ⟨db', t', hseq, ht', hk', hord', hl'⟩ :=
        ih { db with tables := dset db.tables t_id { t with columns := dset t.columns cid col } }
          { t with columns := dset t.columns cid col } ht1 hnd1
          (by rw [hl1]; exact hord1)
      refine ⟨db', t', ?_, ht', ?_, hord', ?_⟩
      · rw [create_columns_seq, heq]
        exact hseq
      · rw [hk']
        rw [hk1, List.append_assoc]
        simp
      · rw [hl', hl1]
        simp [Nat.add_assoc, Nat.add_comm 1 rest.length]

/-- Claim C6.  `create_column` assigns the new column's order to one more
than the maximum order among the table's existing columns, or 0 when the
table has no columns; consequently, creating N columns in sequence (the
payload carries no order field, so none can be set explicitly) against an
initially column-less table yields order values exactly 0, 1, ..., N-1 in
creation order. -/
theorem create_column_order_spec (db : Database) (t_id : String) (t : Table)
    (ht : dget db.tables t_id = some t) :
    (∀ c_id data, ∃ db₁ t₁ col,
        create_column db t_id c_id data = Except.ok db₁ ∧
        dget db₁.tables t_id = some t₁ ∧
        dget t₁.columns c_id = some col ∧
        (t.columns = [] → col.order = 0) ∧
        (∀ m : Int, ((∃ p ∈ t.columns, p.2.order = m) ∧
            ∀ p ∈ t.columns, p.2.order ≤ m) → col.order = m + 1)) ∧
    (t.columns = [] → ∀ ids : List (String × ColumnPayload),
      (ids.map (fun p => p.1)).Nodup →
      ∃ db' t', create_columns_seq db t_id ids = Except.ok db' ∧
        dget db'.tables t_id = some t' ∧
        dkeys t'.columns = ids.map (fun p => p.1) ∧
        t'.columns.map (fun p => p.2.order) = rangeInt ids.length) := by
  constructor
  · intro c_id data
    obtain ⟨col, heq, hordcol⟩ := create_column_ok db t_id c_id data t ht
    refine ⟨_, _, col, heq, dget_dset_self _ _ _, dget_dset_self _ _ _,
      ?_, ?_⟩
    · intro hc
      rw [hordcol, hc]
      rfl
    · rintro m ⟨⟨p, hp, hpm⟩, hbound⟩
      have hmaxm : (t.columns.map (fun p => p.2.order)).maximum =
          ((m : Int) : WithBot Int) := by
        rw [List.maximum_eq_coe_iff]
        constructor
        · exact List.mem_map.mpr ⟨p, hp, hpm⟩
        · intro b hb
          obtain ⟨q, hq, hqb⟩ := List.mem_map.mp hb
          rw [← hqb]
          exact hbound q hq
      rw [hordcol, hmaxm]
  · intro hc ids hnd
    obtain ⟨db', t', hseq, ht', hk', hord', hl'⟩ :=
      create_columns_seq_spec t_id ids db t ht
        (by rw [hc]; simpa [dkeys] using hnd) (by rw [hc]; rfl)
    refine ⟨db', t', hseq, ht', ?_, ?_⟩
    · rw [hk', hc]
      rfl
    · rw [hord', hl', hc]
      simp

/-- Witness database for `create_column_order_spec`: one table `t1`
without columns. -/
def c6wdb : Database :=
  { id := "d1", name := "D",
    tables := [("t1", { id := "t1", name := "T" })] }

/-- Witness: `create_column_order_spec` applied at `c6wdb` and its empty
table `t1`. -/
theorem create_column_order_spec_witness :
    (∀ c_id data, ∃ db₁ t₁ col,
        create_column c6wdb "t1" c_id data = Except.ok db₁ ∧
        dget db₁.tables "t1" = some t₁ ∧
        dget t₁.columns c_id = some col ∧
        (([] : List (String × Column)) = [] → col.order = 0) ∧
        (∀ m : Int, ((∃ p ∈ ([] : List (String × Column)), p.2.order = m) ∧
            ∀ p ∈ ([] : List (String × Column)), p.2.order ≤ m) →
          col.order = m + 1)) ∧
    (([] : List (String × Column)) = [] →
      ∀ ids : List (String × ColumnPayload),
      (ids.map (fun p => p.1)).Nodup →
      ∃ db' t', create_columns_seq c6wdb "t1" ids = Except.ok db' ∧
        dget db'.tables "t1" = some t' ∧
        dkeys t'.columns = ids.map (fun p => p.1) ∧
        t'.columns.map (fun p => p.2.order) = rangeInt ids.length) :=
  create_column_order_spec c6wdb "t1" { id := "t1", name := "T" } rfl

/-- The worklist loop shared verbatim by `shared_folder_doc`,
`shared_folder_sub`, `api_shared_add_note`, `api_shared_resolve_doc` and
`api_shared_docs_state` in `app.py`:

    subtree = set(); pending = [root]
    while pending:
        x = pending.pop()
        subtree.add(x)
        for fid, f in folders.items():
            if f.parent_id == x and fid not in subtree:
                pending.append(fid)

The python set is embedded as a duplicate-free accumulation list; the
python stack is kept reversed, so `pending.pop()` (from the end) is the
head here and the children appended in dict order are prepended reversed.
The fuel argument bounds the number of loop iterations; `resolveSubtree`
supplies fuel proven sufficient below (`resolveSubtree_spec`), so the
`none` branch models an impossible non-termination, not behaviour of the
source. -/
def subtreeGo (folders : List (String × DocFolder)) :
    Nat → List String → List String → Option (List String)
  | _, subtree, [] => some subtree
  | 0, _, _ :: _ => none
  | fuel + 1, subtree, x :: rest =>
      let subtree' := if x ∈ subtree then subtree else subtree ++ [x]
      let children := (folders.filter (fun p =>
        p.2.parent_id = some x ∧ p.1 ∉ subtree')).map (fun p => p.1)
      subtreeGo folders fuel subtree' (children.reverse ++ rest)

/-- The subtree loop run from `subtree = {}` and `pending = [root]`, with
enough fuel for all dict-shaped folder maps. -/
def resolveSubtree (folders : List (String × DocFolder)) (root : String) :
    Option (List String) :=
  subtreeGo folders (folders.length + 1) [] [root]

/-- The resolved subtree as a plain list (fuel sufficiency is proven in
`resolveSubtree_spec`, so the default never fires on a dict-shaped
folder map). -/
def subtreeOf (folders : List (String × DocFolder)) (root : String) :
    List String :=
  (resolveSubtree folders root).getD []

/-- The id `y` is the root, or the parent chain of the folder stored
under `y` reaches the root through existing folders — the semantic
reading of the subtree the worklist collects. -/
inductive ReachesRoot (folders : List (String × DocFolder)) (root : String) :
    String → Prop
  | refl : ReachesRoot folders root root
  | step (fid : String) (f : DocFolder) (p : String) :
      (fid, f) ∈ folders → f.parent_id = some p →
      ReachesRoot folders root p → ReachesRoot folders root fid

/-- The loop invariant of `subtreeGo`: the initial state, or a state in
which the pending stack is duplicate-free, disjoint from the subtree,
and holds only keys of folders whose parent is already in the subtree;
always, everything collected or pending reaches the root, every folder
whose parent is collected is collected or pending, and the root is
collected or pending. -/
def SubInv (folders : List (String × DocFolder)) (root : String)
    (subtree pending : List String) : Prop :=
  ((subtree = [] ∧ pending = [root]) ∨
    (subtree ≠ [] ∧ pending.Nodup ∧
      (∀ c ∈ pending, c ∉ subtree) ∧
      (∀ c ∈ pending, ∃ f, (c, f) ∈ folders ∧
        ∃ q, f.parent_id = some q ∧ q ∈ subtree))) ∧
  (∀ y ∈ subtree, ReachesRoot folders root y) ∧
  (∀ y ∈ pending, ReachesRoot folders root y) ∧
  (∀ fid f, (fid, f) ∈ folders →
    (∃ q, f.parent_id = some q ∧ q ∈ subtree) →
    fid ∈ subtree ∨ fid ∈ pending) ∧
  (root ∈ subtree ∨ root ∈ pending)

theorem mem_assoc_unique {α : Type} {l : List (String × α)}
    (hK : (dkeys l).Nodup) {k : String} {v w : α}
    (hv : (k, v) ∈ l) (hw : (k, w) ∈ l) : v = w := by
  induction l with
  | nil => simp at hv
  | cons p rest ih =>
      obtain ⟨a, b⟩ := p
      rw [dkeys, List.map_cons, List.nodup_cons] at hK
      obtain ⟨hnot, hK'⟩ := hK
      rcases List.mem_cons.mp hv with hv1 | hv1 <;>
        rcases List.mem_cons.mp hw with hw1 | hw1
      · injection hv1 with h1 h2
        injection hw1 with h3 h4
        rw [h2, h4]
      · exfalso
        injection hv1 with h1 h2
        subst h1
        exact hnot (List.mem_map_of_mem (fun p => p.1) hw1)
      · exfalso
        injection hw1 with h1 h2
        subst h1
        exact hnot (List.mem_map_of_mem (fun p => p.1) hv1)
      · exact ih hK' hv1 hw1

theorem filter_not_mem_snoc_lt (l subtree : List String) (x : String)
    (hx : x ∈ l) (hnot : x ∉ subtree) :
    (l.filter (fun k => k ∉ (subtree ++ [x]))).length <
      (l.filter (fun k => k ∉ subtree)).length := by
  induction l with
  | nil => simp at hx
  | cons a l' ih =>
      by_cases hax : a = x
      · subst hax
        rw [List.filter_cons_of_neg (by simp),
          List.filter_cons_of_pos (by simpa using hnot)]
        have himp : ∀ c : String, (decide (c ∉ (subtree ++ [a])) = true) →
            (decide (c ∉ subtree) = true) := by
          intro c hc
          simp only [decide_eq_true_eq] at hc ⊢
          exact fun hmem => hc (List.mem_append_left _ hmem)
        have hle := (List.monotone_filter_right l' himp).length_le
        simpa using Nat.lt_succ_of_le hle
      · have hx' : x ∈ l' := by
          rcases List.mem_cons.mp hx with h | h
          · exact absurd h.symm hax
          · exact h
        have hlt := ih hx'
        by_cases ha : a ∈ subtree ++ [x]
        · rw [List.filter_cons_of_neg
            (by simp only [decide_eq_true_eq, not_not]; exact ha)]
          by_cases ha2 : a ∈ subtree
          · rw [List.filter_cons_of_neg (by simpa using ha2)]
            exact hlt
          · rw [List.filter_cons_of_pos (by simpa using ha2)]
            exact Nat.lt_succ_of_lt hlt
        · have ha2 : a ∉ subtree := fun hc => ha (List.mem_append_left _ hc)
          rw [List.filter_cons_of_pos (by simpa using ha),
            List.filter_cons_of_pos (by simpa using ha2)]
          simpa using Nat.succ_lt_succ hlt

theorem subInv_step (folders : List (String × DocFolder)) (root : String)
    (hK : (dkeys folders).Nodup) (subtree : List String) (x : String)
    (rest : List String)
    (hinv : SubInv folders root subtree (x :: rest)) :
    x ∉ subtree ∧ (x = root ∨ x ∈ dkeys folders) ∧
    SubInv folders root (subtree ++ [x])
      (((folders.filter (fun p =>
          p.2.parent_id = some x ∧ p.1 ∉ (subtree ++ [x]))).map
            (fun p => p.1)).reverse ++ rest) := by
  obtain ⟨hstruct, hreachS, hreachP, hclose, hroot⟩ := hinv
  have hcases : (subtree = [] ∧ x = root ∧ rest = []) ∨
      (subtree ≠ [] ∧ (x :: rest).Nodup ∧
        (∀ c ∈ x :: rest, c ∉ subtree) ∧
        (∀ c ∈ x :: rest, ∃ f, (c, f) ∈ folders ∧
          ∃ q, f.parent_id = some q ∧ q ∈ subtree)) := by
    rcases hstruct with ⟨hs, hp⟩ | h
    · injection hp with h1 h2
      exact Or.inl ⟨hs, h1, h2⟩
    · exact Or.inr h
  have hxnot : x ∉ subtree := by
    rcases hcases with ⟨hs, _, _⟩ | ⟨_, _, hdisj, _⟩
    · rw [hs]
      exact List.not_mem_nil x
    · exact hdisj x (List.mem_cons_self x rest)
  have hxkey : x = root ∨ x ∈ dkeys folders := by
    rcases hcases with ⟨_, hx, _⟩ | ⟨_, _, _, hpar⟩
    · exact Or.inl hx
    · obtain ⟨f, hf, _⟩ := hpar x (List.mem_cons_self x rest)
      exact Or.inr (List.mem_map_of_mem (fun p => p.1) hf)
  have hCmem : ∀ c, c ∈ (folders.filter (fun p =>
      p.2.parent_id = some x ∧ p.1 ∉ (subtree ++ [x]))).map (fun p => p.1) →
      ∃ f', (c, f') ∈ folders ∧ f'.parent_id = some x ∧
        c ∉ subtree ++ [x] := by
    intro c hc
    obtain ⟨p, hp, hpc⟩ := List.mem_map.mp hc
    have hmf := List.mem_filter.mp hp
    have hcond := hmf.2
    simp only [decide_eq_true_eq] at hcond
    subst hpc
    exact ⟨p.2, hmf.1, hcond.1, hcond.2⟩
  have hCmem' : ∀ fid f, (fid, f) ∈ folders → f.parent_id = some x →
      fid ∉ subtree ++ [x] →
      fid ∈ (folders.filter (fun p =>
        p.2.parent_id = some x ∧ p.1 ∉ (subtree ++ [x]))).map
          (fun p => p.1) := by
    intro fid f hmem hpx hfid
    refine List.mem_map.mpr ⟨(fid, f), List.mem_filter.mpr ⟨hmem, ?_⟩, rfl⟩
    simp only [decide_eq_true_eq]
    exact ⟨hpx, hfid⟩
  refine ⟨hxnot, hxkey, ?_, ?_, ?_, ?_, ?_⟩
  · -- structural component
    refine Or.inr ⟨by simp, ?_, ?_, ?_⟩
    · -- Nodup
      have hCsub : List.Sublist ((folders.filter (fun p =>
          p.2.parent_id = some x ∧ p.1 ∉ (subtree ++ [x]))).map
            (fun p => p.1)) (dkeys folders) :=
        List.Sublist.map _ (List.filter_sublist _)
      have hCnd := hCsub.nodup hK
      have hrestnd : rest.Nodup := by
        rcases hcases with ⟨_, _, hr⟩ | ⟨_, hnd, _, _⟩
        · rw [hr]
          exact List.nodup_nil
        · exact hnd.of_cons
      refine (List.nodup_reverse.mpr hCnd).append hrestnd ?_
      intro c hcC hcrest
      rw [List.mem_reverse] at hcC
      obtain ⟨f', hf', hpx, _⟩ := hCmem c hcC
      rcases hcases with ⟨_, _, hr⟩ | ⟨_, _, _, hpar⟩
      · rw [hr] at hcrest
        exact List.not_mem_nil c hcrest
      · obtain ⟨f, hf, q, hq, hqsub⟩ :=
          hpar c (List.mem_cons_of_mem x hcrest)
        have hff : f = f' := mem_assoc_unique hK hf hf'
        rw [hff, hpx] at hq
        have hqx : q = x := by
          injection hq.symm
        rw [hqx] at hqsub
        exact hxnot hqsub
    · -- disjoint from the new subtree
      intro c hc
      rcases List.mem_append.mp hc with hcC | hcrest
      · rw [List.mem_reverse] at hcC
        obtain ⟨f', hf', hpx, hnm⟩ := hCmem c hcC
        exact hnm
      · intro hcA
        rcases List.mem_append.mp hcA with hcs | hcx
        · rcases hcases with ⟨_, _, hr⟩ | ⟨_, _, hdisj, _⟩
          · rw [hr] at hcrest
            exact List.not_mem_nil c hcrest
          · exact hdisj c (List.mem_cons_of_mem x hcrest) hcs
        · rcases hcases with ⟨_, _, hr⟩ | ⟨_, hnd, _, _⟩
          · rw [hr] at hcrest
            exact List.not_mem_nil c hcrest
          · rw [List.mem_singleton] at hcx
            rw [hcx] at hcrest
            exact (List.nodup_cons.mp hnd).1 hcrest
    · -- every pending element has its parent collected
      intro c hc
      rcases List.mem_append.mp hc with hcC | hcrest
      · rw [List.mem_reverse] at hcC
        obtain ⟨f', hf', hpx, _⟩ := hCmem c hcC
        exact ⟨f', hf', x, hpx,
          List.mem_append_right _ (List.mem_singleton_self x)⟩
      · rcases hcases with ⟨_, _, hr⟩ | ⟨_, _, _, hpar⟩
        · rw [hr] at hcrest
          exact absurd hcrest (List.not_mem_nil c)
        · obtain ⟨f, hf, q, hq, hqsub⟩ :=
            hpar c (List.mem_cons_of_mem x hcrest)
          exact ⟨f, hf, q, hq, List.mem_append_left _ hqsub⟩
  · -- everything collected reaches the root
    intro y hy
    rcases List.mem_append.mp hy with hys | hyx
    · exact hreachS y hys
    · rw [List.mem_singleton] at hyx
      rw [hyx]
      exact hreachP x (List.mem_cons_self x rest)
  · -- everything pending reaches the root
    intro y hy
    rcases List.mem_append.mp hy with hyC | hyrest
    · rw [List.mem_reverse] at hyC
      obtain ⟨f', hf', hpx, _⟩ := hCmem y hyC
      exact ReachesRoot.step y f' x hf' hpx
        (hreachP x (List.mem_cons_self x rest))
    · exact hreachP y (List.mem_cons_of_mem x hyrest)
  · -- folders with a collected parent are collected or pending
    intro fid f hmem hq
    obtain ⟨q, hqpar, hqA⟩ := hq
    rcases List.mem_append.mp hqA with hqs | hqx
    · rcases hclose fid f hmem ⟨q, hqpar, hqs⟩ with hfs | hfp
      · exact Or.inl (List.mem_append_left _ hfs)
      · rcases List.mem_cons.mp hfp with hfx | hfr
        · refine Or.inl ?_
          rw [hfx]
          exact List.mem_append_right _ (List.mem_singleton_self x)
        · exact Or.inr (List.mem_append_right _ hfr)
    · rw [List.mem_singleton] at hqx
      rw [hqx] at hqpar
      by_cases hfid : fid ∈ subtree ++ [x]
      · exact Or.inl hfid
      · exact Or.inr (List.mem_append_left _
          (List.mem_reverse.mpr (hCmem' fid f hmem hqpar hfid)))
  · -- the root is collected or pending
    rcases hroot with hrs | hrp
    · exact Or.inl (List.mem_append_left _ hrs)
    · rcases List.mem_cons.mp hrp with hrx | hrr
      · refine Or.inl ?_
        rw [hrx]
        exact List.mem_append_right _ (List.mem_singleton_self x)
      · exact Or.inr (List.mem_append_right _ hrr)

theorem subtreeGo_nil (folders : List (String × DocFolder)) (fuel : Nat)
    (subtree : List String) :
    subtreeGo folders fuel subtree [] = some subtree := by
  cases fuel <;> rfl

theorem subtreeGo_spec (folders : List (String × DocFolder)) (root : String)
    (hK : (dkeys folders).Nodup) :
    ∀ (fuel : Nat) (subtree pending : List String),
      SubInv folders root subtree pending →
      ((root :: dkeys folders).filter (fun k => k ∉ subtree)).length ≤
        fuel →
      ∃ S, subtreeGo folders fuel subtree pending = some S ∧
        (∀ y ∈ subtree, y ∈ S) ∧ (∀ y ∈ pending, y ∈ S) ∧
        (∀ y ∈ S, ReachesRoot folders root y) ∧
        (∀ fid f, (fid, f) ∈ folders →
          (∃ q, f.parent_id = some q ∧ q ∈ S) → fid ∈ S) ∧
        root ∈ S := by
  intro fuel
  induction fuel with
  | zero =>
      intro subtree pending hinv hfuel
      cases pending with
      | nil =>
          refine ⟨subtree, subtreeGo_nil folders 0 subtree,
            fun y hy => hy, fun y hy => absurd hy (List.not_mem_nil y),
            hinv.2.1, ?_, ?_⟩
          · intro fid f hmem hq
            rcases hinv.2.2.2.1 fid f hmem hq with h | h
            · exact h
            · exact absurd h (List.not_mem_nil fid)
          · rcases hinv.2.2.2.2 with h | h
            · exact h
            · exact absurd h (List.not_mem_nil root)
      | cons x rest =>
          exfalso
          obtain ⟨hxnot, hxkey, _⟩ :=
            subInv_step folders root hK subtree x rest hinv
          have hxmem : x ∈ root :: dkeys folders := by
            rcases hxkey with h | h
            · rw [h]
              exact List.mem_cons_self _ _
            · exact List.mem_cons_of_mem _ h
          have hfmem : x ∈ (root :: dkeys folders).filter
              (fun k => k ∉ subtree) :=
            List.mem_filter.mpr ⟨hxmem, by simpa using hxnot⟩
          have := List.length_pos.mpr (List.ne_nil_of_mem hfmem)
          omega
  | succ fuel ih =>
      intro subtree pending hinv hfuel
      cases pending with
      | nil =>
          refine ⟨subtree, subtreeGo_nil folders (fuel + 1) subtree,
            fun y hy => hy, fun y hy => absurd hy (List.not_mem_nil y),
            hinv.2.1, ?_, ?_⟩
          · intro fid f hmem hq
            rcases hinv.2.2.2.1 fid f hmem hq with h | h
            · exact h
            · exact absurd h (List.not_mem_nil fid)
          · rcases hinv.2.2.2.2 with h | h
            · exact h
            · exact absurd h (List.not_mem_nil root)
      | cons x rest =>
          obtain ⟨hxnot, hxkey, hinv'⟩ :=
            subInv_step folders root hK subtree x rest hinv
          have hxmem : x ∈ root :: dkeys folders := by
            rcases hxkey with h | h
            · rw [h]
              exact List.mem_cons_self _ _
            · exact List.mem_cons_of_mem _ h
          have hdec := filter_not_mem_snoc_lt (root :: dkeys folders)
            subtree x hxmem hxnot
          have hfuel' : ((root :: dkeys folders).filter
              (fun k => k ∉ (subtree ++ [x]))).length ≤ fuel := by
            omega
          obtain ⟨S, hS, hsub, hpend, hreach, hclosed, hroot⟩ :=
            ih (subtree ++ [x])
              (((folders.filter (fun p =>
                p.2.parent_id = some x ∧ p.1 ∉ (subtree ++ [x]))).map
                  (fun p => p.1)).reverse ++ rest) hinv' hfuel'
          have hstep : subtreeGo folders (fuel + 1) subtree (x :: rest) =
              subtreeGo folders fuel (subtree ++ [x])
                (((folders.filter (fun p =>
                  p.2.parent_id = some x ∧ p.1 ∉ (subtree ++ [x]))).map
                    (fun p => p.1)).reverse ++ rest) := by
            simp only [subtreeGo]
            rw [if_neg hxnot]
          refine ⟨S, by rw [hstep]; exact hS, ?_, ?_, hreach, hclosed,
            hroot⟩
          · intro y hy
            exact hsub y (List.mem_append_left _ hy)
          · intro y hy
            rcases List.mem_cons.mp hy with hyx | hyr
            · rw [hyx]
              exact hsub x (List.mem_append_right _
                (List.mem_singleton_self x))
            · exact hpend y (List.mem_append_right _ hyr)

/-- The subtree loop of `app.py` terminates on every folder map with
distinct keys — cyclic parent chains included — and computes exactly the
set of ids consisting of the root together with every folder whose parent
chain reaches the root. -/
theorem resolveSubtree_spec (folders : List (String × DocFolder))
    (root : String) (hK : (dkeys folders).Nodup) :
    ∃ S, resolveSubtree folders root = some S ∧
      ∀ y, y ∈ S ↔ ReachesRoot folders root y := by
  have hinv0 : SubInv folders root [] [root] := by
    refine ⟨Or.inl ⟨rfl, rfl⟩, ?_, ?_, ?_, Or.inr (List.mem_singleton_self root)⟩
    · intro y hy
      exact absurd hy (List.not_mem_nil y)
    · intro y hy
      rw [List.mem_singleton] at hy
      rw [hy]
      exact ReachesRoot.refl
    · intro fid f _ hq
      obtain ⟨q, _, hq2⟩ := hq
      exact absurd hq2 (List.not_mem_nil q)
  have hfuel0 : ((root :: dkeys folders).filter
      (fun k => k ∉ ([] : List String))).length ≤ folders.length + 1 := by
    have : (root :: dkeys folders).filter
        (fun k => k ∉ ([] : List String)) = root :: dkeys folders := by
      apply List.filter_eq_self.mpr
      intro a _
      simp
    rw [this]
    simp [dkeys]
  obtain ⟨S, hS, _, _, hreach, hclosed, hroot⟩ :=
    subtreeGo_spec folders root hK (folders.length + 1) [] [root]
      hinv0 hfuel0
  refine ⟨S, hS, fun y => ⟨hreach y, ?_⟩⟩
  intro hr
  induction hr with
  | refl => exact hroot
  | step fid f p hmem hpar _ ihr => exact hclosed fid f hmem ⟨p, hpar, ihr⟩

/-- Claim C9.  Subtree resolution terminates for every folder map with
dict-shaped (duplicate-free) keys and every root id — including folder
maps whose parent chains contain cycles, which the visited set makes
harmless — and returns the set consisting of the root plus every folder
whose parent chain reaches the root. -/
theorem subtree_resolution_terminates (folders : List (String × DocFolder))
    (root : String) (hK : (dkeys folders).Nodup) :
    ∃ S, resolveSubtree folders root = some S ∧
      ∀ y, y ∈ S ↔ ReachesRoot folders root y :=
  resolveSubtree_spec folders root hK

/-- The cyclic folder map of the C9 witness: `a` and `b` are each
other's parents. -/
def c9wfolders : List (String × DocFolder) :=
  [("a", { id := "a", name := "A", parent_id := some "b" }),
   ("b", { id := "b", name := "B", parent_id := some "a" })]

/-- Witness: `subtree_resolution_terminates` on a folder map whose
parent chains form a 2-cycle. -/
theorem subtree_resolution_terminates_witness :
    ∃ S, resolveSubtree c9wfolders "a" = some S ∧
      ∀ y, y ∈ S ↔ ReachesRoot c9wfolders "a" y :=
  subtree_resolution_terminates c9wfolders "a" (by decide)

/-- A tenant's document tree (folders and documents), as `load_docs`
returns it. -/
structure TenantDocs where
  folders : List (String × DocFolder) := []
  documents : List (String × Document) := []
deriving Repr, DecidableEq

/-- `_shared_context` of `app.py`: look the token up in the global share
store (404 when absent) and load the owning tenant's docs. -/
def sharedContext (shares : List (String × DocShare))
    (store : String → TenantDocs) (token : String) :
    Except ApiError (DocShare × TenantDocs) :=
  match dget shares token with
  | none => .error .notFound
  | some s => .ok (s, store s.pin)

/-- `shared_folder_doc` of `app.py` (GET /s/f/token/d/doc_id): 404 for a
non-folder share or a missing document; 403 when the document's parent
neither lies in the resolved subtree nor equals the shared root;
otherwise the document is served. -/
def shared_folder_doc (shares : List (String × DocShare))
    (store : String → TenantDocs) (token doc_id : String) :
    Except ApiError Document :=
  match sharedContext shares store token with
  | .error e => .error e
  | .ok (s, docs) =>
      if s.kind ≠ "folder" then .error .notFound
      else
        match dget docs.documents doc_id with
        | none => .error .notFound
        | some doc =>
            let subtree := subtreeOf docs.folders s.target_id
            let inSub : Bool := (match doc.parent_id with
              | some p => decide (p ∈ subtree)
              | none => false) ||
                decide (doc.parent_id = some s.target_id)
            if inSub then .ok doc else .error .forbidden

/-- `api_shared_add_note` of `app.py` (POST /api/shared/d/token/doc_id/
notes): anonymous share holders may add a note; a folder share is checked
against the resolved subtree first (403 outside), then the trimmed text
must be non-empty (400).  Malformed `start_line`/`end_line` integers live
outside this typed payload; a missing `end_line` defaults to
`start_line`. -/
def api_shared_add_note (shares : List (String × DocShare))
    (store : String → TenantDocs) (token doc_id : String)
    (start_line : Int) (end_line : Option Int)
    (text author : Option String) (nid : String) (now : Int) :
    Except ApiError (List (String × Document)) :=
  match sharedContext shares store token with
  | .error e => .error e
  | .ok (s, docs) =>
      if s.kind ≠ "doc" ∧ s.kind ≠ "folder" then .error .notFound
      else
        match dget docs.documents doc_id with
        | none => .error .notFound
        | some d =>
            let subtree := subtreeOf docs.folders s.target_id
            let inSub : Bool := (match d.parent_id with
              | some p => decide (p ∈ subtree)
              | none => false) ||
                decide (d.parent_id = some s.target_id)
            if s.kind = "folder" ∧ inSub = false then .error .forbidden
            else
              let txt := pyStrip (text.getD "")
              if txt = "" then .error .invalidInput
              else
                let note : DocNote :=
                  { id := nid, start_line := start_line,
                    end_line := end_line.getD start_line, text := txt,
                    author := pyStrip (author.getD ""),
                    created_at := now }
                .ok (dset docs.documents doc_id
                  { d with notes := dset d.notes nid note,
                           updated_at := now })

/-- `api_shared_resolve_doc` of `app.py` (GET /api/shared/resolve/token/
doc/doc_id): 404 for an unknown token or missing document; otherwise an
authorization verdict — for a folder share, parent in subtree or equal to
the root; for any other kind, exactly a doc share of this document. -/
def api_shared_resolve_doc (shares : List (String × DocShare))
    (store : String → TenantDocs) (token doc_id : String) :
    Except ApiError Bool :=
  match sharedContext shares store token with
  | .error e => .error e
  | .ok (s, docs) =>
      match dget docs.documents doc_id with
      | none => .error .notFound
      | some d =>
          if s.kind = "folder" then
            let subtree := subtreeOf docs.folders s.target_id
            .ok ((match d.parent_id with
              | some p => decide (p ∈ subtree)
              | none => false) ||
                decide (d.parent_id = some s.target_id))
          else
            .ok (decide (s.kind = "doc" ∧ s.target_id = doc_id))

theorem subtreeOf_eq {folders : List (String × DocFolder)} {root : String}
    {S : List String} (h : resolveSubtree folders root = some S) :
    subtreeOf folders root = S := by
  rw [subtreeOf, h]
  rfl

/-- Claim C4.  For a share resolved through the global share store: under
a doc share, a document is authorized iff it is exactly the target; under
a folder share, iff its parent is the shared root or lies in the resolved
subtree (equivalently, its parent chain reaches the root); a read or
add-note request through a folder share for a document outside the
resolved subtree fails with Forbidden; and a request with a token mapping
to no share fails with NotFound. -/
theorem share_authorization_spec (shares : List (String × DocShare))
    (store : String → TenantDocs) (token doc_id : String) :
    (∀ s d, dget shares token = some s →
      dget (store s.pin).documents doc_id = some d →
      d.id = doc_id →
      (dkeys (store s.pin).folders).Nodup →
      (s.kind = "doc" →
        (api_shared_resolve_doc shares store token doc_id =
            Except.ok true ↔ s.target_id = d.id)) ∧
      (s.kind = "folder" →
        (api_shared_resolve_doc shares store token doc_id =
            Except.ok true ↔
          (d.parent_id = some s.target_id ∨ ∃ p, d.parent_id = some p ∧
            ReachesRoot (store s.pin).folders s.target_id p)) ∧
        ((d.parent_id = none ∨ (∀ p, d.parent_id = some p →
            ¬ ReachesRoot (store s.pin).folders s.target_id p)) →
          shared_folder_doc shares store token doc_id =
            Except.error ApiError.forbidden ∧
          ∀ sl el txt auth nid now,
            api_shared_add_note shares store token doc_id sl el txt auth
              nid now = Except.error ApiError.forbidden))) ∧
    (dget shares token = none →
      api_shared_resolve_doc shares store token doc_id =
          Except.error ApiError.notFound ∧
      shared_folder_doc shares store token doc_id =
          Except.error ApiError.notFound ∧
      ∀ sl el txt auth nid now,
        api_shared_add_note shares store token doc_id sl el txt auth nid
          now = Except.error ApiError.notFound) := by
  constructor
  · intro s d hs hd hid hK
    obtain ⟨S, hS, hmemS⟩ :=
      resolveSubtree_spec (store s.pin).folders s.target_id hK
    have hsubS := subtreeOf_eq hS
    refine ⟨?_, ?_⟩
    · intro hkind
      have hnf : ¬ (s.kind = "folder") := by
        rw [hkind]
        decide
      simp only [api_shared_resolve_doc, sharedContext, hs, hd,
        if_neg hnf]
      simp [hkind, ← hid]
    · intro hkind
      constructor
      · simp only [api_shared_resolve_doc, sharedContext, hs, hd,
          if_pos hkind, hsubS]
        cases hpar : d.parent_id with
        | none => simp
        | some p =>
            simp only [Except.ok.injEq, Bool.or_eq_true,
              decide_eq_true_eq, Option.some.injEq]
            rw [hmemS p]
            constructor
            · rintro (h | h)
              · exact Or.inr ⟨p, rfl, h⟩
              · exact Or.inl h
            · rintro (h | ⟨q, hq, hr⟩)
              · exact Or.inr h
              · refine Or.inl ?_
                rw [hq]
                exact hr
      · intro houtside
        have hfalse : ((match d.parent_id with
            | some p => decide (p ∈ subtreeOf
                (store s.pin).folders s.target_id)
            | none => false) ||
              decide (d.parent_id = some s.target_id)) = false := by
          rw [hsubS]
          cases hpar : d.parent_id with
          | none => simp
          | some p =>
              rcases houtside with hn | hnr
              · rw [hpar] at hn
                exact absurd hn (by simp)
              · have hnp := hnr p hpar
                simp only [Bool.or_eq_false_iff, decide_eq_false_iff_not,
                  Option.some.injEq]
                constructor
                · intro hin
                  exact hnp ((hmemS p).mp hin)
                · intro hptar
                  rw [hptar] at hnp
                  exact hnp ReachesRoot.refl
        have hnotdoc : ¬ (s.kind ≠ "doc" ∧ s.kind ≠ "folder") := by
          rw [hkind]
          decide
        have hnnf : ¬ (s.kind ≠ "folder") := by
          rw [hkind]
          decide
        constructor
        · simp only [shared_folder_doc, sharedContext, hs, hd,
            if_neg hnnf]
          rw [if_neg (by rw [hfalse]; exact Bool.false_ne_true)]
        · intro sl el txt auth nid now
          simp only [api_shared_add_note, sharedContext, hs, hd,
            if_neg hnotdoc]
          rw [if_pos ⟨hkind, hfalse⟩]
  · intro h
    refine ⟨?_, ?_, ?_⟩
    · simp only [api_shared_resolve_doc, sharedContext, h]
    · simp only [shared_folder_doc, sharedContext, h]
    · intro sl el txt auth nid now
      simp only [api_shared_add_note, sharedContext, h]

/-- Folders of the C4 witness: `b` is a child of the shared root `a`. -/
def c4folders : List (String × DocFolder) :=
  [("a", { id := "a", name := "A" }),
   ("b", { id := "b", name := "B", parent_id := some "a" })]

/-- A document inside the shared subtree (under `b`). -/
def c4doc1 : Document := { id := "doc1", name := "Doc1",
                           parent_id := some "b" }

/-- A document outside the shared subtree (at top level). -/
def c4doc2 : Document := { id := "doc2", name := "Doc2" }

/-- The witness tenant's document tree. -/
def c4docs : TenantDocs :=
  { folders := c4folders,
    documents := [("doc1", c4doc1), ("doc2", c4doc2)] }

/-- The witness share store: a folder share of `a` and a doc share of
`doc1`. -/
def c4shares : List (String × DocShare) :=
  [("tok", { id := "tok", pin := "pin1", kind := "folder",
             target_id := "a" }),
   ("tokd", { id := "tokd", pin := "pin1", kind := "doc",
              target_id := "doc1" })]

/-- The witness per-pin doc store. -/
def c4store : String → TenantDocs :=
  fun p => if p = "pin1" then c4docs else {}

/-- Witness: `share_authorization_spec` at concrete shares — the folder
share authorizes a document under a child folder, rejects a top-level
document with Forbidden, the doc share authorizes its target, and an
unknown token gives NotFound. -/
theorem share_authorization_spec_witness :
    api_shared_resolve_doc c4shares c4store "tok" "doc1" =
      Except.ok true ∧
    shared_folder_doc c4shares c4store "tok" "doc2" =
      Except.error ApiError.forbidden ∧
    api_shared_resolve_doc c4shares c4store "tokd" "doc1" =
      Except.ok true ∧
    api_shared_resolve_doc c4shares c4store "bad" "doc1" =
      Except.error ApiError.notFound := by
  have hreachb : ReachesRoot c4folders "a" "b" :=
    ReachesRoot.step "b" { id := "b", name := "B", parent_id := some "a" }
      "a" (by decide) rfl ReachesRoot.refl
  refine ⟨?_, ?_, ?_, ?_⟩
  · exact ((((share_authorization_spec c4shares c4store "tok" "doc1").1
      { id := "tok", pin := "pin1", kind := "folder", target_id := "a" }
      c4doc1 rfl rfl rfl (by decide)).2 rfl).1).mpr
      (Or.inr ⟨"b", rfl, hreachb⟩)
  · exact ((((share_authorization_spec c4shares c4store "tok" "doc2").1
      { id := "tok", pin := "pin1", kind := "folder", target_id := "a" }
      c4doc2 rfl rfl rfl (by decide)).2 rfl).2 (Or.inl rfl)).1
  · exact (((share_authorization_spec c4shares c4store "tokd" "doc1").1
      { id := "tokd", pin := "pin1", kind := "doc", target_id := "doc1" }
      c4doc1 rfl rfl rfl (by decide)).1 rfl).mpr rfl
  · exact ((share_authorization_spec c4shares c4store "bad" "doc1").2
      rfl).1

/-- One copied column of `duplicate_database`'s first pass: scalar fields
copied verbatim, `foreign_ref` deferred to `None`; the source constructor
call omits `order`, so the dataclass default 0 applies. -/
def copyColumn (cNew : String) (c : Column) : Column :=
  { id := cNew, name := c.name, datatype := c.datatype,
    is_primary := c.is_primary, is_nullable := c.is_nullable,
    dflt := c.dflt, note := c.note, foreign_ref := none, order := 0 }

/-- The inner loop of `duplicate_database`'s first pass: walk one table's
columns, allocating `fresh ctr` for each `gen_id()` call in order, and
extend the old→new column-id map, the new table's column dict and the
deferred foreign_ref list. -/
def dupColumnsGo (fresh : Nat → String) (tNew : String) :
    List (String × Column) → Nat → List (String × String) →
    List (String × Column) → List (String × String × ForeignRef) →
    Nat × List (String × String) × List (String × Column) ×
      List (String × String × ForeignRef)
  | [], ctr, cmap, cols, pend => (ctr, cmap, cols, pend)
  | (cOld, c) :: rest, ctr, cmap, cols, pend =>
      dupColumnsGo fresh tNew rest (ctr + 1)
        (dset cmap cOld (fresh ctr))
        (dset cols (fresh ctr) (copyColumn (fresh ctr) c))
        (match c.foreign_ref with
         | some fr => pend ++ [(tNew, fresh ctr, fr)]
         | none => pend)

/-- The outer loop of the first pass: per source table allocate a new
table id, create the table (note copied, columns filled by the inner
loop), and thread the id maps and deferred refs. -/
def dupTablesGo (fresh : Nat → String) :
    List (String × Table) → Nat → List (String × String) →
    List (String × String) → List (String × Table) →
    List (String × String × ForeignRef) →
    Nat × List (String × String) × List (String × String) ×
      List (String × Table) × List (String × String × ForeignRef)
  | [], ctr, tmap, cmap, tables, pend => (ctr, tmap, cmap, tables, pend)
  | (tOld, t) :: rest, ctr, tmap, cmap, tables, pend =>
      let r := dupColumnsGo fresh (fresh ctr) t.columns (ctr + 1) cmap
        [] pend
      dupTablesGo fresh rest r.1 (dset tmap tOld (fresh ctr)) r.2.1
        (dset tables (fresh ctr)
          { id := fresh ctr, name := t.name, note := t.note,
            columns := r.2.2.1 })
        r.2.2.2

/-- Python `new_db.tables[tid].columns[cid].foreign_ref = fr`; a missing
key would raise KeyError, surfaced as `none`. -/
def setColRef (tables : List (String × Table)) (tid cid : String)
    (fr : ForeignRef) : Option (List (String × Table)) :=
  match dget tables tid with
  | none => none
  | some tb =>
      match dget tb.columns cid with
      | none => none
      | some c =>
          let c' : Column := { c with foreign_ref := some fr }
          some (dset tables tid
            { tb with columns := dset tb.columns cid c' })

/-- The second pass of `duplicate_database`: resolve each deferred
foreign_ref through the two id maps; python truthiness (`if mapped_t and
mapped_c`) silently drops the ref when either lookup misses or yields an
empty string. -/
def resolveRefs (tmap cmap : List (String × String)) :
    List (String × String × ForeignRef) → List (String × Table) →
    Option (List (String × Table))
  | [], tables => some tables
  | (tid, cid, fr) :: rest, tables =>
      match dget tmap fr.table_id, dget cmap fr.column_id with
      | some mt, some mc =>
          if mt ≠ "" ∧ mc ≠ "" then
            match setColRef tables tid cid
                { table_id := mt, column_id := mc, note := fr.note } with
            | none => none
            | some tables' => resolveRefs tmap cmap rest tables'
          else resolveRefs tmap cmap rest tables
      | _, _ => resolveRefs tmap cmap rest tables

/-- The per-link remap of the third pass: table-typed endpoints go
through the table map, column-typed ones through the column map, any
other type tag passes through; unmapped ids fall back unchanged
(`dict.get(x, x)`). -/
def remapLink (newId : String) (tmap cmap : List (String × String))
    (l : Link) : Link :=
  { id := newId, from_type := l.from_type,
    from_id :=
      if l.from_type = "table" then (dget tmap l.from_id).getD l.from_id
      else if l.from_type = "column" then
        (dget cmap l.from_id).getD l.from_id
      else l.from_id,
    to_type := l.to_type,
    to_id :=
      if l.to_type = "table" then (dget tmap l.to_id).getD l.to_id
      else if l.to_type = "column" then (dget cmap l.to_id).getD l.to_id
      else l.to_id,
    note := l.note }

/-- The third pass of `duplicate_database`: one fresh id per source link,
endpoints remapped. -/
def dupLinksGo (fresh : Nat → String) (tmap cmap : List (String × String)) :
    List (String × Link) → Nat → List (String × Link) →
    List (String × Link)
  | [], _, acc => acc
  | (_, l) :: rest, ctr, acc =>
      dupLinksGo fresh tmap cmap rest (ctr + 1)
        (dset acc (fresh ctr) (remapLink (fresh ctr) tmap cmap l))

/-- `duplicate_database` of `app.py` (engine part, applied to the source
database).  `fresh` models the successive `gen_id()` results in call
order: index 0 is the new database id, then one index per table, per
column (interleaved in iteration order) and per link.  A `none` result
models an uncaught KeyError in the second pass; it is proven unreachable
for dict-shaped sources with genuinely fresh ids. -/
def duplicate_database (src : Database) (fresh : Nat → String) :
    Option Database :=
  let r := dupTablesGo fresh src.tables 1 [] [] [] []
  match resolveRefs r.2.1 r.2.2.1 r.2.2.2.2 r.2.2.2.1 with
  | none => none
  | some tables2 =>
      some { id := fresh 0, name := src.name ++ " (copy)",
             note := src.note, tables := tables2,
             links := dupLinksGo fresh r.2.1 r.2.2.1 src.links r.1 [],
             diagram := [] }

/-- The old→new table-id and column-id maps the duplication builds. -/
def duplicate_maps (src : Database) (fresh : Nat → String) :
    List (String × String) × List (String × String) :=
  let r := dupTablesGo fresh src.tables 1 [] [] [] []
  (r.2.1, r.2.2.1)

/-- The handler around the duplication engine: 404 for a missing source,
otherwise the duplicate is stored under the fresh database id. -/
def duplicate_database_api (dbs : List (String × Database)) (db_id : String)
    (fresh : Nat → String) :
    Option (Except ApiError (List (String × Database))) :=
  match dget dbs db_id with
  | none => some (.error .notFound)
  | some src =>
      (duplicate_database src fresh).map
        (fun newDb => .ok (dset dbs (fresh 0) newDb))

/-- The column stored under table id `tid` and column id `cid`. -/
def getCol (tables : List (String × Table)) (tid cid : String) :
    Option Column :=
  (dget tables tid).bind (fun t => dget t.columns cid)

/-- All column ids of a table list. -/
def colKeysAll (tbls : List (String × Table)) : List String :=
  (tbls.map (fun p => dkeys p.2.columns)).flatten

/-- Dict-shaped ids of a database, as python's dicts and the spec's
Identity Generator ("produces short unique opaque IDs") guarantee:
duplicate-free table keys, globally duplicate-free column keys, and
duplicate-free link keys. -/
def WellFormedDB (db : Database) : Prop :=
  (dkeys db.tables).Nodup ∧ (colKeysAll db.tables).Nodup ∧
  (dkeys db.links).Nodup

/-- A model of `gen_id`'s guarantees relative to a source database: the
generated ids are pairwise distinct, never empty, and never collide with
an id the source already owns. -/
def FreshFor (fresh : Nat → String) (db : Database) : Prop :=
  (∀ i j, fresh i = fresh j → i = j) ∧
  (∀ n, fresh n ∉ allIds db) ∧ (∀ n, fresh n ≠ "")

/-- Every link endpoint is well-typed and names an entity of the
database. -/
def LinksClosed (db : Database) : Prop :=
  ∀ p ∈ db.links,
    ((p.2.from_type = "table" ∧ p.2.from_id ∈ tableIds db) ∨
     (p.2.from_type = "column" ∧ p.2.from_id ∈ columnIds db)) ∧
    ((p.2.to_type = "table" ∧ p.2.to_id ∈ tableIds db) ∨
     (p.2.to_type = "column" ∧ p.2.to_id ∈ columnIds db))

/-- Every stored ForeignRef names a table id and a column id of the
database. -/
def RefsClosed (db : Database) : Prop :=
  ∀ p ∈ db.tables, ∀ q ∈ p.2.columns, ∀ fr,
    q.2.foreign_ref = some fr →
    fr.table_id ∈ tableIds db ∧ fr.column_id ∈ columnIds db

/-- Closed form of the new column dict one first-pass table produces. -/
def dupColsSpec (fresh : Nat → String) : Nat → List (String × Column) →
    List (String × Column)
  | _, [] => []
  | ctr, (_, c) :: rest =>
      (fresh ctr, copyColumn (fresh ctr) c) ::
        dupColsSpec fresh (ctr + 1) rest

/-- Closed form of the column-id map entries one table contributes. -/
def dupCmapSpec (fresh : Nat → String) : Nat → List (String × Column) →
    List (String × String)
  | _, [] => []
  | ctr, (cOld, _) :: rest =>
      (cOld, fresh ctr) :: dupCmapSpec fresh (ctr + 1) rest

/-- Closed form of the deferred foreign_ref entries one table
contributes. -/
def dupPendSpec (fresh : Nat → String) (tNew : String) :
    Nat → List (String × Column) → List (String × String × ForeignRef)
  | _, [] => []
  | ctr, (_, c) :: rest =>
      (match c.foreign_ref with
       | some fr => [(tNew, fresh ctr, fr)]
       | none => []) ++ dupPendSpec fresh tNew (ctr + 1) rest

/-- Number of `gen_id()` calls the first pass makes on a table list. -/
def tcount : List (String × Table) → Nat
  | [] => 0
  | (_, t) :: rest => 1 + t.columns.length + tcount rest

/-- Closed form of the table-id map. -/
def dupTmapSpec (fresh : Nat → String) : Nat → List (String × Table) →
    List (String × String)
  | _, [] => []
  | ctr, (tOld, t) :: rest =>
      (tOld, fresh ctr) :: dupTmapSpec fresh (ctr + 1 + t.columns.length) rest

/-- Closed form of the full column-id map. -/
def dupCmapAll (fresh : Nat → String) : Nat → List (String × Table) →
    List (String × String)
  | _, [] => []
  | ctr, (_, t) :: rest =>
      dupCmapSpec fresh (ctr + 1) t.columns ++
        dupCmapAll fresh (ctr + 1 + t.columns.length) rest

/-- Closed form of the new table dict the first pass produces. -/
def dupTablesSpec (fresh : Nat → String) : Nat → List (String × Table) →
    List (String × Table)
  | _, [] => []
  | ctr, (_, t) :: rest =>
      (fresh ctr, { id := fresh ctr, name := t.name, note := t.note,
                    columns := dupColsSpec fresh (ctr + 1) t.columns }) ::
        dupTablesSpec fresh (ctr + 1 + t.columns.length) rest

/-- Closed form of the full deferred foreign_ref list. -/
def dupPendAll (fresh : Nat → String) : Nat → List (String × Table) →
    List (String × String × ForeignRef)
  | _, [] => []
  | ctr, (_, t) :: rest =>
      dupPendSpec fresh (fresh ctr) (ctr + 1) t.columns ++
        dupPendAll fresh (ctr + 1 + t.columns.length) rest

/-- Closed form of the new link dict. -/
def dupLinksSpec (fresh : Nat → String) (tmap cmap : List (String × String)) :
    Nat → List (String × Link) → List (String × Link)
  | _, [] => []
  | ctr, (_, l) :: rest =>
      (fresh ctr, remapLink (fresh ctr) tmap cmap l) ::
        dupLinksSpec fresh tmap cmap (ctr + 1) rest

theorem mem_dget {α : Type} {l : List (String × α)} {k : String} {v : α}
    (hm : (k, v) ∈ l) (hK : (dkeys l).Nodup) : dget l k = some v := by
  induction l with
  | nil => simp at hm
  | cons p rest ih =>
      obtain ⟨a, b⟩ := p
      rw [dkeys, List.map_cons, List.nodup_cons] at hK
      rcases List.mem_cons.mp hm with h | h
      · injection h with h1 h2
        subst h1
        subst h2
        simp [dget]
      · have hak : a ≠ k := by
          intro hc
          apply hK.1
          rw [hc]
          exact List.mem_map_of_mem (fun p => p.1) h
        simp only [dget, if_neg hak]
        exact ih h hK.2

theorem dget_isSome_iff {α : Type} (l : List (String × α)) (k : String) :
    (dget l k).isSome ↔ k ∈ dkeys l := by
  induction l with
  | nil => simp [dget, dkeys]
  | cons p rest ih =>
      obtain ⟨a, b⟩ := p
      by_cases h : a = k
      · simp [dget, h, dkeys]
      · rw [mem_dkeys_cons]
        simp only [dget, if_neg h]
        rw [ih]
        constructor
        · exact Or.inr
        · rintro (hc | hc)
          · exact absurd hc.symm h
          · exact hc

theorem length_dset_mem {α : Type} (l : List (String × α)) (k : String)
    (v : α) (h : k ∈ dkeys l) : (dset l k v).length = l.length := by
  induction l with
  | nil => simp [dkeys] at h
  | cons p rest ih =>
      obtain ⟨a, b⟩ := p
      by_cases hp : a = k
      · simp [dset, hp]
      · rw [mem_dkeys_cons] at h
        rcases h with h | h
        · exact absurd h.symm hp
        · simp only [dset, if_neg hp, List.length_cons]
          rw [ih h]

theorem forall₂_mem_left {α β : Type} {R : α → β → Prop} :
    ∀ {l : List α} {m : List β}, List.Forall₂ R l m → ∀ a ∈ l,
      ∃ b ∈ m, R a b := by
  intro l m h
  induction h with
  | nil => intro a ha; simp at ha
  | cons hr _ ih =>
      intro a ha
      rcases List.mem_cons.mp ha with h1 | h1
      · subst h1
        exact ⟨_, List.mem_cons_self _ _, hr⟩
      · obtain ⟨b, hb, hab⟩ := ih a h1
        exact ⟨b, List.mem_cons_of_mem _ hb, hab⟩

theorem dupColumnsGo_eq (fresh : Nat → String) (tNew : String)
    (hinj : ∀ i j, fresh i = fresh j → i = j) :
    ∀ (cols : List (String × Column)) (ctr : Nat)
      (cmap : List (String × String)) (acc : List (String × Column))
      (pend : List (String × String × ForeignRef)),
      (∀ i, ctr ≤ i → fresh i ∉ dkeys acc) →
      (dkeys cols).Nodup →
      (∀ o ∈ dkeys cols, o ∉ dkeys cmap) →
      dupColumnsGo fresh tNew cols ctr cmap acc pend =
        (ctr + cols.length, cmap ++ dupCmapSpec fresh ctr cols,
         acc ++ dupColsSpec fresh ctr cols,
         pend ++ dupPendSpec fresh tNew ctr cols) := by
  intro cols
  induction cols with
  | nil =>
      intro ctr cmap acc pend _ _ _
      simp [dupColumnsGo, dupCmapSpec, dupColsSpec, dupPendSpec]
  | cons hd rest ih =>
      intro ctr cmap acc pend hacc hnd hcm
      obtain ⟨cOld, c⟩ := hd
      have h1 : dset cmap cOld (fresh ctr) = cmap ++ [(cOld, fresh ctr)] :=
        dset_eq_append _ _ _
          (hcm cOld (by rw [mem_dkeys_cons]; exact Or.inl rfl))
      have h2 : dset acc (fresh ctr) (copyColumn (fresh ctr) c) =
          acc ++ [(fresh ctr, copyColumn (fresh ctr) c)] :=
        dset_eq_append _ _ _ (hacc ctr le_rfl)
      have hacc' : ∀ i, ctr + 1 ≤ i →
          fresh i ∉ dkeys (acc ++ [(fresh ctr, copyColumn (fresh ctr) c)]) := by
        intro i hi
        rw [dkeys_append]
        intro hmem
        rcases List.mem_append.mp hmem with hA | hB
        · exact hacc i (Nat.le_of_succ_le hi) hA
        · rw [dkeys] at hB
          simp at hB
          have := hinj i ctr hB
          omega
      have hnd' : (dkeys rest).Nodup := by
        rw [dkeys, List.map_cons, List.nodup_cons] at hnd
        exact hnd.2
      have hcOld : cOld ∉ dkeys rest := by
        rw [dkeys, List.map_cons, List.nodup_cons] at hnd
        exact hnd.1
      have hcm' : ∀ o ∈ dkeys rest,
          o ∉ dkeys (cmap ++ [(cOld, fresh ctr)]) := by
        intro o ho
        rw [dkeys_append]
        intro hmem
        rcases List.mem_append.mp hmem with hA | hB
        · exact hcm o (by rw [mem_dkeys_cons]; exact Or.inr ho) hA
        · rw [dkeys] at hB
          simp at hB
          rw [hB] at ho
          exact hcOld ho
      simp only [dupColumnsGo]
      rw [h1, h2, ih (ctr + 1) _ _ _ hacc' hnd' hcm']
      simp only [dupCmapSpec, dupColsSpec, dupPendSpec, Prod.mk.injEq]
      refine ⟨by simp only [List.length_cons]; omega, ?_, ?_, ?_⟩
      · simp
      · simp
      · cases c.foreign_ref <;> simp

theorem colKeysAll_cons (p : String × Table) (rest : List (String × Table)) :
    colKeysAll (p :: rest) = dkeys p.2.columns ++ colKeysAll rest := by
  simp [colKeysAll]

theorem dkeys_dupCmapSpec (fresh : Nat → String) :
    ∀ (cols : List (String × Column)) (ctr : Nat),
      dkeys (dupCmapSpec fresh ctr cols) = dkeys cols := by
  intro cols
  induction cols with
  | nil => intro ctr; rfl
  | cons hd rest ih =>
      intro ctr
      obtain ⟨cOld, c⟩ := hd
      simp [dupCmapSpec, dkeys] at ih ⊢
      exact ih (ctr + 1)

theorem dupTablesGo_eq (fresh : Nat → String)
    (hinj : ∀ i j, fresh i = fresh j → i = j) :
    ∀ (tbls : List (String × Table)) (ctr : Nat)
      (tmap cmap : List (String × String))
      (tables : List (String × Table))
      (pend : List (String × String × ForeignRef)),
      (∀ i, ctr ≤ i → fresh i ∉ dkeys tables) →
      (dkeys tbls).Nodup →
      (∀ o ∈ dkeys tbls, o ∉ dkeys tmap) →
      (colKeysAll tbls).Nodup →
      (∀ o ∈ colKeysAll tbls, o ∉ dkeys cmap) →
      dupTablesGo fresh tbls ctr tmap cmap tables pend =
        (ctr + tcount tbls, tmap ++ dupTmapSpec fresh ctr tbls,
         cmap ++ dupCmapAll fresh ctr tbls,
         tables ++ dupTablesSpec fresh ctr tbls,
         pend ++ dupPendAll fresh ctr tbls) := by
  intro tbls
  induction tbls with
  | nil =>
      intro ctr tmap cmap tables pend _ _ _ _ _
      simp [dupTablesGo, dupTmapSpec, dupCmapAll, dupTablesSpec,
        dupPendAll, tcount]
  | cons hd rest ih =>
      intro ctr tmap cmap tables pend hacc hndT htm hndC hcm
      obtain ⟨tOld, t⟩ := hd
      rw [colKeysAll_cons] at hndC hcm
      have hndcols : (dkeys t.columns).Nodup :=
        hndC.of_append_left
      have hndrestC : (colKeysAll rest).Nodup :=
        hndC.of_append_right
      have hdisjC : ∀ o ∈ colKeysAll rest, o ∉ dkeys t.columns := by
        intro o ho hc
        exact (List.disjoint_of_nodup_append hndC) hc ho
      have hinner := dupColumnsGo_eq fresh (fresh ctr) hinj t.columns
        (ctr + 1) cmap [] pend
        (by intro i _ h; simp [dkeys] at h)
        hndcols
        (by intro o ho; exact hcm o (List.mem_append_left _ ho))
      have htOld : tOld ∉ dkeys rest := by
        rw [dkeys, List.map_cons, List.nodup_cons] at hndT
        exact hndT.1
      have hndT' : (dkeys rest).Nodup := by
        rw [dkeys, List.map_cons, List.nodup_cons] at hndT
        exact hndT.2
      have h1 : dset tmap tOld (fresh ctr) = tmap ++ [(tOld, fresh ctr)] :=
        dset_eq_append _ _ _
          (htm tOld (by rw [mem_dkeys_cons]; exact Or.inl rfl))
      have h2 : dset tables (fresh ctr)
          { id := fresh ctr, name := t.name, note := t.note,
            columns := dupColsSpec fresh (ctr + 1) t.columns } =
          tables ++ [(fresh ctr,
            { id := fresh ctr, name := t.name, note := t.note,
              columns := dupColsSpec fresh (ctr + 1) t.columns })] :=
        dset_eq_append _ _ _ (hacc ctr le_rfl)
      have hacc' : ∀ i, ctr + 1 + t.columns.length ≤ i →
          fresh i ∉ dkeys (tables ++ [(fresh ctr,
            { id := fresh ctr, name := t.name, note := t.note,
              columns := dupColsSpec fresh (ctr + 1) t.columns })]) := by
        intro i hi
        rw [dkeys_append]
        intro hmem
        rcases List.mem_append.mp hmem with hA | hB
        · exact hacc i (by omega) hA
        · rw [dkeys] at hB
          simp at hB
          have := hinj i ctr hB
          omega
      have htm' : ∀ o ∈ dkeys rest,
          o ∉ dkeys (tmap ++ [(tOld, fresh ctr)]) := by
        intro o ho
        rw [dkeys_append]
        intro hmem
        rcases List.mem_append.mp hmem with hA | hB
        · exact htm o (by rw [mem_dkeys_cons]; exact Or.inr ho) hA
        · rw [dkeys] at hB
          simp at hB
          rw [hB] at ho
          exact htOld ho
      have hcm' : ∀ o ∈ colKeysAll rest,
          o ∉ dkeys (cmap ++ dupCmapSpec fresh (ctr + 1) t.columns) := by
        intro o ho
        rw [dkeys_append, dkeys_dupCmapSpec]
        intro hmem
        rcases List.mem_append.mp hmem with hA | hB
        · exact hcm o (List.mem_append_right _ ho) hA
        · exact hdisjC o ho hB
      simp only [dupTablesGo, hinner, List.nil_append]
      rw [h1, h2,
        ih (ctr + 1 + t.columns.length) _ _ _ _ hacc' hndT' htm'
          hndrestC hcm']
      simp only [dupTmapSpec, dupCmapAll, dupTablesSpec, dupPendAll,
        tcount, Prod.mk.injEq]
      refine ⟨by omega, ?_, ?_, ?_, ?_⟩
      · simp
      · simp
      · simp
      · simp

theorem dupLinksGo_eq (fresh : Nat → String)
    (tmap cmap : List (String × String))
    (hinj : ∀ i j, fresh i = fresh j → i = j) :
    ∀ (links : List (String × Link)) (ctr : Nat)
      (acc : List (String × Link)),
      (∀ i, ctr ≤ i → fresh i ∉ dkeys acc) →
      dupLinksGo fresh tmap cmap links ctr acc =
        acc ++ dupLinksSpec fresh tmap cmap ctr links := by
  intro links
  induction links with
  | nil =>
      intro ctr acc _
      simp [dupLinksGo, dupLinksSpec]
  | cons hd rest ih =>
      intro ctr acc hacc
      obtain ⟨lOld, l⟩ := hd
      have h2 : dset acc (fresh ctr) (remapLink (fresh ctr) tmap cmap l) =
          acc ++ [(fresh ctr, remapLink (fresh ctr) tmap cmap l)] :=
        dset_eq_append _ _ _ (hacc ctr le_rfl)
      have hacc' : ∀ i, ctr + 1 ≤ i → fresh i ∉
          dkeys (acc ++ [(fresh ctr, remapLink (fresh ctr) tmap cmap l)]) := by
        intro i hi
        rw [dkeys_append]
        intro hmem
        rcases List.mem_append.mp hmem with hA | hB
        · exact hacc i (by omega) hA
        · rw [dkeys] at hB
          simp at hB
          have := hinj i ctr hB
          omega
      simp only [dupLinksGo]
      rw [h2, ih (ctr + 1) _ hacc']
      simp [dupLinksSpec]

theorem dupColsSpec_length (fresh : Nat → String) :
    ∀ (cols : List (String × Column)) (ctr : Nat),
      (dupColsSpec fresh ctr cols).length = cols.length := by
  intro cols
  induction cols with
  | nil => intro ctr; rfl
  | cons hd rest ih =>
      intro ctr
      obtain ⟨a, c⟩ := hd
      simp [dupColsSpec, ih (ctr + 1)]

theorem dupTablesSpec_length (fresh : Nat → String) :
    ∀ (tbls : List (String × Table)) (ctr : Nat),
      (dupTablesSpec fresh ctr tbls).length = tbls.length := by
  intro tbls
  induction tbls with
  | nil => intro ctr; rfl
  | cons hd rest ih =>
      intro ctr
      obtain ⟨a, t⟩ := hd
      simp [dupTablesSpec, ih]

theorem dupLinksSpec_length (fresh : Nat → String)
    (tmap cmap : List (String × String)) :
    ∀ (links : List (String × Link)) (ctr : Nat),
      (dupLinksSpec fresh tmap cmap ctr links).length = links.length := by
  intro links
  induction links with
  | nil => intro ctr; rfl
  | cons hd rest ih =>
      intro ctr
      obtain ⟨a, l⟩ := hd
      simp [dupLinksSpec, ih (ctr + 1)]

theorem dupColsSpec_ref_none (fresh : Nat → String) :
    ∀ (cols : List (String × Column)) (ctr : Nat),
      ∀ q ∈ dupColsSpec fresh ctr cols, q.2.foreign_ref = none := by
  intro cols
  induction cols with
  | nil => intro ctr q hq; simp [dupColsSpec] at hq
  | cons hd rest ih =>
      intro ctr q hq
      obtain ⟨a, c⟩ := hd
      rcases List.mem_cons.mp hq with h | h
      · rw [h]
        rfl
      · exact ih (ctr + 1) q h

theorem dupColsSpec_keys (fresh : Nat → String) :
    ∀ (cols : List (String × Column)) (ctr : Nat),
      ∀ k ∈ dkeys (dupColsSpec fresh ctr cols),
        ∃ i, ctr ≤ i ∧ i < ctr + cols.length ∧ k = fresh i := by
  intro cols
  induction cols with
  | nil => intro ctr k hk; simp [dupColsSpec, dkeys] at hk
  | cons hd rest ih =>
      intro ctr k hk
      obtain ⟨a, c⟩ := hd
      rw [dupColsSpec, mem_dkeys_cons] at hk
      rcases hk with h | h
      · exact ⟨ctr, le_rfl, by simp, h⟩
      · obtain ⟨i, hi1, hi2, hi3⟩ := ih (ctr + 1) k h
        exact ⟨i, by omega, by simp only [List.length_cons]; omega, hi3⟩

theorem dupColsSpec_keys_nodup (fresh : Nat → String)
    (hinj : ∀ i j, fresh i = fresh j → i = j) :
    ∀ (cols : List (String × Column)) (ctr : Nat),
      (dkeys (dupColsSpec fresh ctr cols)).Nodup := by
  intro cols
  induction cols with
  | nil => intro ctr; simp [dupColsSpec, dkeys]
  | cons hd rest ih =>
      intro ctr
      obtain ⟨a, c⟩ := hd
      rw [dupColsSpec, dkeys, List.map_cons, List.nodup_cons]
      refine ⟨?_, ih (ctr + 1)⟩
      intro hmem
      obtain ⟨i, hi1, _, hi3⟩ := dupColsSpec_keys fresh rest (ctr + 1)
        (fresh ctr) hmem
      have := hinj ctr i hi3
      omega

theorem dupTablesSpec_keys (fresh : Nat → String) :
    ∀ (tbls : List (String × Table)) (ctr : Nat),
      ∀ k ∈ dkeys (dupTablesSpec fresh ctr tbls),
        ∃ i, ctr ≤ i ∧ i < ctr + tcount tbls ∧ k = fresh i := by
  intro tbls
  induction tbls with
  | nil => intro ctr k hk; simp [dupTablesSpec, dkeys] at hk
  | cons hd rest ih =>
      intro ctr k hk
      obtain ⟨a, t⟩ := hd
      rw [dupTablesSpec, mem_dkeys_cons] at hk
      rcases hk with h | h
      · exact ⟨ctr, le_rfl, by simp only [tcount]; omega, h⟩
      · obtain ⟨i, hi1, hi2, hi3⟩ := ih (ctr + 1 + t.columns.length) k h
        refine ⟨i, by omega, ?_, hi3⟩
        simp only [tcount]
        omega

theorem dupTablesSpec_keys_nodup (fresh : Nat → String)
    (hinj : ∀ i j, fresh i = fresh j → i = j) :
    ∀ (tbls : List (String × Table)) (ctr : Nat),
      (dkeys (dupTablesSpec fresh ctr tbls)).Nodup := by
  intro tbls
  induction tbls with
  | nil => intro ctr; simp [dupTablesSpec, dkeys]
  | cons hd rest ih =>
      intro ctr
      obtain ⟨a, t⟩ := hd
      rw [dupTablesSpec, dkeys, List.map_cons, List.nodup_cons]
      refine ⟨?_, ih (ctr + 1 + t.columns.length)⟩
      intro hmem
      obtain ⟨i, hi1, _, hi3⟩ := dupTablesSpec_keys fresh rest
        (ctr + 1 + t.columns.length) (fresh ctr) hmem
      have := hinj ctr i hi3
      omega

theorem dkeys_dupTmapSpec (fresh : Nat → String) :
    ∀ (tbls : List (String × Table)) (ctr : Nat),
      dkeys (dupTmapSpec fresh ctr tbls) = dkeys tbls := by
  intro tbls
  induction tbls with
  | nil => intro ctr; rfl
  | cons hd rest ih =>
      intro ctr
      obtain ⟨a, t⟩ := hd
      have h := ih (ctr + 1 + t.columns.length)
      simp only [dkeys] at h ⊢
      simp only [dupTmapSpec, List.map_cons]
      rw [h]

theorem dkeys_dupCmapAll (fresh : Nat → String) :
    ∀ (tbls : List (String × Table)) (ctr : Nat),
      dkeys (dupCmapAll fresh ctr tbls) = colKeysAll tbls := by
  intro tbls
  induction tbls with
  | nil => intro ctr; rfl
  | cons hd rest ih =>
      intro ctr
      obtain ⟨a, t⟩ := hd
      rw [dupCmapAll, dkeys_append, dkeys_dupCmapSpec, colKeysAll_cons,
        ih (ctr + 1 + t.columns.length)]

theorem dupTmapSpec_values (fresh : Nat → String) :
    ∀ (tbls : List (String × Table)) (ctr : Nat),
      ∀ e ∈ dupTmapSpec fresh ctr tbls,
        e.2 ∈ dkeys (dupTablesSpec fresh ctr tbls) ∧
        ∃ i, ctr ≤ i ∧ e.2 = fresh i := by
  intro tbls
  induction tbls with
  | nil => intro ctr e he; simp [dupTmapSpec] at he
  | cons hd rest ih =>
      intro ctr e he
      obtain ⟨a, t⟩ := hd
      rcases List.mem_cons.mp he with h | h
      · rw [h]
        exact ⟨by rw [dupTablesSpec, mem_dkeys_cons]; exact Or.inl rfl,
          ctr, le_rfl, rfl⟩
      · obtain ⟨h1, i, hi1, hi2⟩ := ih (ctr + 1 + t.columns.length) e h
        refine ⟨?_, i, by omega, hi2⟩
        rw [dupTablesSpec, mem_dkeys_cons]
        exact Or.inr h1

theorem dupCmapAll_values (fresh : Nat → String) :
    ∀ (tbls : List (String × Table)) (ctr : Nat),
      ∀ e ∈ dupCmapAll fresh ctr tbls,
        e.2 ∈ colKeysAll (dupTablesSpec fresh ctr tbls) ∧
        ∃ i, ctr ≤ i ∧ e.2 = fresh i := by
  intro tbls
  induction tbls with
  | nil => intro ctr e he; simp [dupCmapAll] at he
  | cons hd rest ih =>
      intro ctr e he
      obtain ⟨a, t⟩ := hd
      have hinner : ∀ (cols : List (String × Column)) (c0 : Nat),
          ∀ e' ∈ dupCmapSpec fresh c0 cols,
            e'.2 ∈ dkeys (dupColsSpec fresh c0 cols) ∧
            ∃ i, c0 ≤ i ∧ e'.2 = fresh i := by
        intro cols
        induction cols with
        | nil => intro c0 e' he'; simp [dupCmapSpec] at he'
        | cons chd crest cih =>
            intro c0 e' he'
            obtain ⟨co, cc⟩ := chd
            rcases List.mem_cons.mp he' with h | h
            · rw [h]
              exact ⟨by rw [dupColsSpec, mem_dkeys_cons]; exact Or.inl rfl,
                c0, le_rfl, rfl⟩
            · obtain ⟨h1, i, hi1, hi2⟩ := cih (c0 + 1) e' h
              refine ⟨?_, i, by omega, hi2⟩
              rw [dupColsSpec, mem_dkeys_cons]
              exact Or.inr h1
      rcases List.mem_append.mp he with h | h
      · obtain ⟨h1, i, hi1, hi2⟩ := hinner t.columns (ctr + 1) e h
        refine ⟨?_, i, by omega, hi2⟩
        rw [dupTablesSpec, colKeysAll_cons]
        exact List.mem_append_left _ h1
      · obtain ⟨h1, i, hi1, hi2⟩ := ih (ctr + 1 + t.columns.length) e h
        refine ⟨?_, i, by omega, hi2⟩
        rw [dupTablesSpec, colKeysAll_cons]
        exact List.mem_append_right _ h1

theorem dupColsSpec_corr (fresh : Nat → String) (tNew : String)
    (hinj : ∀ i j, fresh i = fresh j → i = j) :
    ∀ (cols : List (String × Column)) (ctr : Nat),
      (dkeys cols).Nodup →
      ∀ p ∈ cols, ∃ n,
        dget (dupCmapSpec fresh ctr cols) p.1 = some n ∧
        dget (dupColsSpec fresh ctr cols) n = some (copyColumn n p.2) ∧
        (∃ i, ctr ≤ i ∧ n = fresh i) ∧
        (∀ fr, p.2.foreign_ref = some fr →
          (tNew, n, fr) ∈ dupPendSpec fresh tNew ctr cols) := by
  intro cols
  induction cols with
  | nil => intro ctr _ p hp; simp at hp
  | cons hd rest ih =>
      intro ctr hnd p hp
      obtain ⟨cOld, c⟩ := hd
      rw [dkeys, List.map_cons, List.nodup_cons] at hnd
      rcases List.mem_cons.mp hp with h | h
      · subst h
        refine ⟨fresh ctr, ?_, ?_, ⟨ctr, le_rfl, rfl⟩, ?_⟩
        · simp [dupCmapSpec, dget]
        · simp [dupColsSpec, dget]
        · intro fr hfr
          rw [dupPendSpec, hfr]
          exact List.mem_append_left _ (List.mem_singleton_self _)
      · obtain ⟨n, h1, h2, ⟨i, hi1, hi2⟩, h4⟩ := ih (ctr + 1) hnd.2 p h
        have hpk : cOld ≠ p.1 := by
          intro hc
          apply hnd.1
          rw [hc]
          exact List.mem_map_of_mem (fun q => q.1) h
        refine ⟨n, ?_, ?_, ⟨i, by omega, hi2⟩, ?_⟩
        · simp only [dupCmapSpec, dget, if_neg hpk]
          exact h1
        · have hne : fresh ctr ≠ n := by
            rw [hi2]
            intro hc
            have := hinj ctr i hc
            omega
          simp only [dupColsSpec, dget, if_neg hne]
          exact h2
        · intro fr hfr
          rw [dupPendSpec]
          exact List.mem_append_right _ (h4 fr hfr)

theorem dupTablesSpec_corr (fresh : Nat → String)
    (hinj : ∀ i j, fresh i = fresh j → i = j) :
    ∀ (tbls : List (String × Table)) (ctr : Nat),
      (dkeys tbls).Nodup → (colKeysAll tbls).Nodup →
      ∀ p ∈ tbls, ∃ m tN,
        dget (dupTmapSpec fresh ctr tbls) p.1 = some m ∧
        (m, tN) ∈ dupTablesSpec fresh ctr tbls ∧
        (∃ i, ctr ≤ i ∧ m = fresh i) ∧
        ∀ q ∈ p.2.columns, ∃ n,
          dget (dupCmapAll fresh ctr tbls) q.1 = some n ∧
          dget tN.columns n = some (copyColumn n q.2) ∧
          (∃ j, ctr ≤ j ∧ n = fresh j) ∧
          (∀ fr, q.2.foreign_ref = some fr →
            (m, n, fr) ∈ dupPendAll fresh ctr tbls) := by
  intro tbls
  induction tbls with
  | nil => intro ctr _ _ p hp; simp at hp
  | cons hd rest ih =>
      intro ctr hndT hndC p hp
      obtain ⟨tOld, t⟩ := hd
      rw [colKeysAll_cons] at hndC
      rw [dkeys, List.map_cons, List.nodup_cons] at hndT
      rcases List.mem_cons.mp hp with h | h
      · subst h
        refine ⟨fresh ctr,
          { id := fresh ctr, name := t.name, note := t.note,
            columns := dupColsSpec fresh (ctr + 1) t.columns },
          by simp [dupTmapSpec, dget],
          by rw [dupTablesSpec]; exact List.mem_cons_self _ _,
          ⟨ctr, le_rfl, rfl⟩, ?_⟩
        intro q hq
        obtain ⟨n, h1, h2, ⟨j, hj1, hj2⟩, h4⟩ :=
          dupColsSpec_corr fresh (fresh ctr) hinj t.columns (ctr + 1)
            hndC.of_append_left q hq
        refine ⟨n, ?_, h2, ⟨j, by omega, hj2⟩, ?_⟩
        · rw [dupCmapAll, dget_append_left]
          · exact h1
          · rw [dkeys_dupCmapSpec]
            exact List.mem_map_of_mem (fun r => r.1) hq
        · intro fr hfr
          rw [dupPendAll]
          exact List.mem_append_left _ (h4 fr hfr)
      · obtain ⟨m, tN, h1, h2, ⟨i, hi1, hi2⟩, h4⟩ :=
          ih (ctr + 1 + t.columns.length) hndT.2 hndC.of_append_right p h
        have hpk : tOld ≠ p.1 := by
          intro hc
          apply hndT.1
          rw [hc]
          exact List.mem_map_of_mem (fun q => q.1) h
        refine ⟨m, tN, ?_, ?_, ⟨i, by omega, hi2⟩, ?_⟩
        · simp only [dupTmapSpec, dget, if_neg hpk]
          exact h1
        · rw [dupTablesSpec]
          exact List.mem_cons_of_mem _ h2
        · intro q hq
          obtain ⟨n, g1, g2, ⟨j, hj1, hj2⟩, g4⟩ := h4 q hq
          refine ⟨n, ?_, g2, ⟨j, by omega, hj2⟩, ?_⟩
          · rw [dupCmapAll, dget_append_right]
            · exact g1
            · rw [dkeys_dupCmapSpec]
              intro hc
              exact (List.disjoint_of_nodup_append hndC) hc
                (by
                  have : q.1 ∈ colKeysAll rest := by
                    rw [colKeysAll]
                    refine List.mem_flatten.mpr
                      ⟨dkeys p.2.columns, ?_, ?_⟩
                    · exact List.mem_map_of_mem _ h
                    · exact List.mem_map_of_mem (fun r => r.1) hq
                  exact this)
          · intro fr hfr
            rw [dupPendAll]
            exact List.mem_append_right _ (g4 fr hfr)

theorem dupPendSpec_cids (fresh : Nat → String) (tNew : String) :
    ∀ (cols : List (String × Column)) (ctr : Nat),
      ∀ e ∈ dupPendSpec fresh tNew ctr cols,
        ∃ i, ctr ≤ i ∧ i < ctr + cols.length ∧ e.2.1 = fresh i := by
  intro cols
  induction cols with
  | nil => intro ctr e he; simp [dupPendSpec] at he
  | cons hd rest ih =>
      intro ctr e he
      obtain ⟨cOld, c⟩ := hd
      rw [dupPendSpec] at he
      rcases List.mem_append.mp he with h | h
      · cases hfr : c.foreign_ref with
        | none => rw [hfr] at h; simp at h
        | some fr =>
            rw [hfr] at h
            rw [List.mem_singleton] at h
            subst h
            exact ⟨ctr, le_rfl, by simp only [List.length_cons]; omega,
              rfl⟩
      · obtain ⟨i, hi1, hi2, hi3⟩ := ih (ctr + 1) e h
        exact ⟨i, by omega, by simp only [List.length_cons]; omega, hi3⟩

theorem dupPendAll_cids (fresh : Nat → String) :
    ∀ (tbls : List (String × Table)) (ctr : Nat),
      ∀ e ∈ dupPendAll fresh ctr tbls,
        ∃ i, ctr ≤ i ∧ i < ctr + tcount tbls ∧ e.2.1 = fresh i := by
  intro tbls
  induction tbls with
  | nil => intro ctr e he; simp [dupPendAll] at he
  | cons hd rest ih =>
      intro ctr e he
      obtain ⟨tOld, t⟩ := hd
      rw [dupPendAll] at he
      rcases List.mem_append.mp he with h | h
      · obtain ⟨i, hi1, hi2, hi3⟩ :=
          dupPendSpec_cids fresh (fresh ctr) t.columns (ctr + 1) e h
        exact ⟨i, by omega, by simp only [tcount]; omega, hi3⟩
      · obtain ⟨i, hi1, hi2, hi3⟩ := ih (ctr + 1 + t.columns.length) e h
        exact ⟨i, by omega, by simp only [tcount]; omega, hi3⟩

theorem eq_of_nodup_map {α β : Type} (f : α → β) :
    ∀ (l : List α), (l.map f).Nodup →
      ∀ a ∈ l, ∀ b ∈ l, f a = f b → a = b := by
  intro l
  induction l with
  | nil => intro _ a ha; simp at ha
  | cons x rest ih =>
      intro hnd a ha b hb hf
      rw [List.map_cons, List.nodup_cons] at hnd
      rcases List.mem_cons.mp ha with ha2 | ha2
      · rcases List.mem_cons.mp hb with hb2 | hb2
        · rw [ha2, hb2]
        · exfalso
          apply hnd.1
          rw [← ha2, hf]
          exact List.mem_map_of_mem f hb2
      · rcases List.mem_cons.mp hb with hb2 | hb2
        · exfalso
          apply hnd.1
          rw [← hb2, ← hf]
          exact List.mem_map_of_mem f ha2
        · exact ih hnd.2 a ha2 b hb2 hf

theorem forall₂_rfl {α : Type} {R : α → α → Prop} (h : ∀ a, R a a) :
    ∀ l : List α, List.Forall₂ R l l := by
  intro l
  induction l with
  | nil => exact List.Forall₂.nil
  | cons a rest ih => exact List.Forall₂.cons (h a) ih

theorem forall₂_trans_imp {α β γ : Type} {R : α → β → Prop}
    {S : β → γ → Prop} {T : α → γ → Prop}
    (h : ∀ a b c, R a b → S b c → T a c) :
    ∀ {l : List α} {m : List β} {n : List γ},
      List.Forall₂ R l m → List.Forall₂ S m n → List.Forall₂ T l n := by
  intro l m n h1
  induction h1 generalizing n with
  | nil =>
      intro h2
      cases h2
      exact List.Forall₂.nil
  | cons hr _ ih =>
      intro h2
      cases h2 with
      | cons hs ht => exact List.Forall₂.cons (h _ _ _ hr hs) (ih ht)

theorem forall₂_dkeys {α β : Type} {R : (String × α) → (String × β) → Prop}
    (hf : ∀ a b, R a b → a.1 = b.1) :
    ∀ {l : List (String × α)} {m : List (String × β)},
      List.Forall₂ R l m → dkeys l = dkeys m := by
  intro l m h
  induction h with
  | nil => rfl
  | cons hr _ ih =>
      simp only [dkeys, List.map_cons] at ih ⊢
      rw [hf _ _ hr, ih]

theorem dset_forall₂ {α : Type} {R : (String × α) → (String × α) → Prop}
    (hrefl : ∀ p, R p p) :
    ∀ (l : List (String × α)) (k : String) (v : α),
      (∀ old, dget l k = some old → R (k, v) (k, old)) →
      k ∈ dkeys l →
      List.Forall₂ R (dset l k v) l := by
  intro l
  induction l with
  | nil => intro k v _ hk; simp [dkeys] at hk
  | cons p rest ih =>
      intro k v hupd hk
      obtain ⟨a, b⟩ := p
      by_cases hak : a = k
      · subst hak
        rw [show dset ((a, b) :: rest) a v = (a, v) :: rest from by
          simp [dset]]
        exact List.Forall₂.cons (hupd b (by simp [dget]))
          (forall₂_rfl hrefl rest)
      · rw [show dset ((a, b) :: rest) k v = (a, b) :: dset rest k v from by
          simp [dset, hak]]
        refine List.Forall₂.cons (hrefl _) (ih k v ?_ ?_)
        · intro old ho
          apply hupd old
          simp only [dget, if_neg hak]
          exact ho
        · rw [mem_dkeys_cons] at hk
          rcases hk with h | h
          · exact absurd h.symm hak
          · exact h

/-- The relation the second pass induces on one column entry: the key is
unchanged and the value is either untouched or its foreign_ref was set to
a value of the two id maps. -/
def ColRel (tmap cmap : List (String × String))
    (qN qO : String × Column) : Prop :=
  qN.1 = qO.1 ∧ (qN.2 = qO.2 ∨ ∃ fr : ForeignRef,
    (∃ o, (o, fr.table_id) ∈ tmap) ∧ (∃ o, (o, fr.column_id) ∈ cmap) ∧
    qN.2 = { qO.2 with foreign_ref := some fr })

/-- The relation the second pass induces on one table entry. -/
def TblRel (tmap cmap : List (String × String))
    (pN pO : String × Table) : Prop :=
  pN.1 = pO.1 ∧ List.Forall₂ (ColRel tmap cmap) pN.2.columns pO.2.columns

theorem colRel_refl (tmap cmap : List (String × String))
    (q : String × Column) : ColRel tmap cmap q q :=
  ⟨rfl, Or.inl rfl⟩

theorem tblRel_refl (tmap cmap : List (String × String))
    (p : String × Table) : TblRel tmap cmap p p :=
  ⟨rfl, forall₂_rfl (colRel_refl tmap cmap) _⟩

theorem colRel_trans (tmap cmap : List (String × String))
    {a b c : String × Column} (h1 : ColRel tmap cmap a b)
    (h2 : ColRel tmap cmap b c) : ColRel tmap cmap a c := by
  obtain ⟨h1k, h1v⟩ := h1
  obtain ⟨h2k, h2v⟩ := h2
  refine ⟨h1k.trans h2k, ?_⟩
  rcases h1v with h1v | ⟨fr, hmt, hmc, he⟩
  · rw [h1v]
    exact h2v
  · rcases h2v with h2v | ⟨fr', hmt', hmc', he'⟩
    · right
      exact ⟨fr, hmt, hmc, by rw [he, h2v]⟩
    · right
      refine ⟨fr, hmt, hmc, ?_⟩
      rw [he, he']

theorem tblRel_trans (tmap cmap : List (String × String))
    {a b c : String × Table} (h1 : TblRel tmap cmap a b)
    (h2 : TblRel tmap cmap b c) : TblRel tmap cmap a c := by
  obtain ⟨h1k, h1c⟩ := h1
  obtain ⟨h2k, h2c⟩ := h2
  refine ⟨h1k.trans h2k, ?_⟩
  exact forall₂_trans_imp
    (fun (x y z : String × Column) (hx : ColRel tmap cmap x y)
      (hy : ColRel tmap cmap y z) => colRel_trans tmap cmap hx hy)
    h1c h2c

theorem tblRel_colKeys (tmap cmap : List (String × String)) :
    ∀ {l m : List (String × Table)},
      List.Forall₂ (TblRel tmap cmap) l m → colKeysAll l = colKeysAll m := by
  intro l m h
  induction h with
  | nil => rfl
  | cons hr _ ih =>
      rw [colKeysAll_cons, colKeysAll_cons, ih,
        forall₂_dkeys (fun _ _ hab => hab.1) hr.2]

theorem setColRef_eq (tables : List (String × Table)) (tid cid : String)
    (fr : ForeignRef) (tables' : List (String × Table))
    (h : setColRef tables tid cid fr = some tables') :
    ∃ tb c, dget tables tid = some tb ∧ dget tb.columns cid = some c ∧
      tables' = dset tables tid { tb with columns := dset tb.columns cid { c with foreign_ref := some fr } } := by
  cases h1 : dget tables tid with
  | none => simp [setColRef, h1] at h
  | some tb =>
      cases h2 : dget tb.columns cid with
      | none => simp [setColRef, h1, h2] at h
      | some c =>
          simp only [setColRef, h1, h2, Option.some.injEq] at h
          exact ⟨tb, c, rfl, h2, h.symm⟩

theorem setColRef_isSome (tables : List (String × Table)) (tid cid : String)
    (fr : ForeignRef) (h : (getCol tables tid cid).isSome) :
    (setColRef tables tid cid fr).isSome := by
  unfold getCol at h
  cases h1 : dget tables tid with
  | none => rw [h1] at h; simp at h
  | some tb =>
      rw [h1] at h
      cases h2 : dget tb.columns cid with
      | none => simp [h2] at h
      | some c => simp [setColRef, h1, h2]

theorem getCol_setColRef_ne (tables : List (String × Table))
    (tid cid : String) (fr : ForeignRef) (tables' : List (String × Table))
    (a b : String) (h : setColRef tables tid cid fr = some tables')
    (hne : a ≠ tid ∨ b ≠ cid) :
    getCol tables' a b = getCol tables a b := by
  obtain ⟨tb, c, h1, h2, h3⟩ := setColRef_eq tables tid cid fr tables' h
  subst h3
  by_cases ha : a = tid
  · subst ha
    rcases hne with hne | hne
    · exact absurd rfl hne
    · unfold getCol
      rw [dget_dset_self, h1]
      simp only [Option.some_bind]
      exact dget_dset_ne _ _ _ _ hne
  · unfold getCol
    rw [dget_dset_ne _ _ _ _ ha]

theorem getCol_setColRef_isSome (tables : List (String × Table))
    (tid cid : String) (fr : ForeignRef) (tables' : List (String × Table))
    (a b : String) (h : setColRef tables tid cid fr = some tables') :
    (getCol tables' a b).isSome ↔ (getCol tables a b).isSome := by
  by_cases hab : a = tid ∧ b = cid
  · obtain ⟨ha, hb⟩ := hab
    subst ha
    subst hb
    obtain ⟨tb, c, h1, h2, h3⟩ := setColRef_eq tables a b fr tables' h
    subst h3
    unfold getCol
    rw [dget_dset_self, h1]
    simp only [Option.some_bind]
    rw [dget_dset_self, h2]
    simp
  · rw [getCol_setColRef_ne tables tid cid fr tables' a b h (by tauto)]

theorem resolveRefs_total (tmap cmap : List (String × String)) :
    ∀ (pend : List (String × String × ForeignRef))
      (tables : List (String × Table)),
      (∀ e ∈ pend, (getCol tables e.1 e.2.1).isSome) →
      ∃ tables2, resolveRefs tmap cmap pend tables = some tables2 := by
  intro pend
  induction pend with
  | nil => intro tables _; exact ⟨tables, rfl⟩
  | cons e rest ih =>
      intro tables hall
      obtain ⟨tid, cid, fr⟩ := e
      cases hmt : dget tmap fr.table_id with
      | none =>
          simp only [resolveRefs, hmt]
          exact ih tables (fun e he => hall e (List.mem_cons_of_mem _ he))
      | some mt =>
          cases hmc : dget cmap fr.column_id with
          | none =>
              simp only [resolveRefs, hmt, hmc]
              exact ih tables
                (fun e he => hall e (List.mem_cons_of_mem _ he))
          | some mc =>
              by_cases hne : mt ≠ "" ∧ mc ≠ ""
              · have hs := setColRef_isSome tables tid cid
                  { table_id := mt, column_id := mc, note := fr.note }
                  (hall (tid, cid, fr) (List.mem_cons_self _ _))
                obtain ⟨tables', hsc⟩ := Option.isSome_iff_exists.mp hs
                simp only [resolveRefs, hmt, hmc, if_pos hne, hsc]
                exact ih tables' (fun e he =>
                  (getCol_setColRef_isSome tables tid cid _ tables'
                    e.1 e.2.1 hsc).mpr
                    (hall e (List.mem_cons_of_mem _ he)))
              · simp only [resolveRefs, hmt, hmc, if_neg hne]
                exact ih tables
                  (fun e he => hall e (List.mem_cons_of_mem _ he))

theorem resolveRefs_preserved (tmap cmap : List (String × String)) :
    ∀ (pend : List (String × String × ForeignRef))
      (tables tables2 : List (String × Table)) (tid₀ cid₀ : String),
      resolveRefs tmap cmap pend tables = some tables2 →
      (∀ tid' fr', (tid', cid₀, fr') ∈ pend →
        dget tmap fr'.table_id = none ∨ dget cmap fr'.column_id = none) →
      getCol tables2 tid₀ cid₀ = getCol tables tid₀ cid₀ := by
  intro pend
  induction pend with
  | nil =>
      intro tables tables2 tid₀ cid₀ h _
      simp only [resolveRefs, Option.some.injEq] at h
      rw [h]
  | cons e rest ih =>
      intro tables tables2 tid₀ cid₀ hres hdang
      obtain ⟨tid, cid, fr⟩ := e
      cases hmt : dget tmap fr.table_id with
      | none =>
          simp only [resolveRefs, hmt] at hres
          exact ih tables tables2 tid₀ cid₀ hres
            (fun tid' fr' hm => hdang tid' fr' (List.mem_cons_of_mem _ hm))
      | some mt =>
          cases hmc : dget cmap fr.column_id with
          | none =>
              simp only [resolveRefs, hmt, hmc] at hres
              exact ih tables tables2 tid₀ cid₀ hres
                (fun tid' fr' hm =>
                  hdang tid' fr' (List.mem_cons_of_mem _ hm))
          | some mc =>
              by_cases hne : mt ≠ "" ∧ mc ≠ ""
              · have hcid : cid ≠ cid₀ := by
                  intro hc
                  subst hc
                  rcases hdang tid fr (List.mem_cons_self _ _) with h | h
                  · rw [hmt] at h; exact Option.noConfusion h
                  · rw [hmc] at h; exact Option.noConfusion h
                simp only [resolveRefs, hmt, hmc, if_pos hne] at hres
                cases hsc : setColRef tables tid cid
                    { table_id := mt, column_id := mc, note := fr.note } with
                | none => rw [hsc] at hres; exact absurd hres (by simp)
                | some tables' =>
                    rw [hsc] at hres
                    rw [ih tables' tables2 tid₀ cid₀ hres
                      (fun tid' fr' hm =>
                        hdang tid' fr' (List.mem_cons_of_mem _ hm))]
                    exact getCol_setColRef_ne tables tid cid _ tables'
                      tid₀ cid₀ hsc (Or.inr (Ne.symm hcid))
              · simp only [resolveRefs, hmt, hmc, if_neg hne] at hres
                exact ih tables tables2 tid₀ cid₀ hres
                  (fun tid' fr' hm =>
                    hdang tid' fr' (List.mem_cons_of_mem _ hm))

theorem setColRef_rel (tmap cmap : List (String × String))
    (tables : List (String × Table)) (tid cid : String) (fr : ForeignRef)
    (tables' : List (String × Table))
    (h : setColRef tables tid cid fr = some tables')
    (hmt : ∃ o, (o, fr.table_id) ∈ tmap)
    (hmc : ∃ o, (o, fr.column_id) ∈ cmap) :
    List.Forall₂ (TblRel tmap cmap) tables' tables := by
  obtain ⟨tb, c, h1, h2, h3⟩ := setColRef_eq tables tid cid _ tables' h
  subst h3
  apply dset_forall₂ (tblRel_refl tmap cmap)
  · intro old hold
    rw [h1] at hold
    injection hold with hold
    subst hold
    refine ⟨rfl, ?_⟩
    apply dset_forall₂ (colRel_refl tmap cmap)
    · intro oldc holdc
      rw [h2] at holdc
      injection holdc with holdc
      subst holdc
      exact ⟨rfl, Or.inr ⟨fr, hmt, hmc, rfl⟩⟩
    · have : (dget tb.columns cid).isSome := by rw [h2]; rfl
      exact (dget_isSome_iff _ _).mp this
  · have : (dget tables tid).isSome := by rw [h1]; rfl
    exact (dget_isSome_iff _ _).mp this

theorem resolveRefs_rel (tmap cmap : List (String × String)) :
    ∀ (pend : List (String × String × ForeignRef))
      (tables tables2 : List (String × Table)),
      resolveRefs tmap cmap pend tables = some tables2 →
      List.Forall₂ (TblRel tmap cmap) tables2 tables := by
  intro pend
  induction pend with
  | nil =>
      intro tables tables2 h
      simp only [resolveRefs, Option.some.injEq] at h
      rw [← h]
      exact forall₂_rfl (tblRel_refl tmap cmap) tables
  | cons e rest ih =>
      intro tables tables2 hres
      obtain ⟨tid, cid, fr⟩ := e
      cases hmt : dget tmap fr.table_id with
      | none =>
          simp only [resolveRefs, hmt] at hres
          exact ih tables tables2 hres
      | some mt =>
          cases hmc : dget cmap fr.column_id with
          | none =>
              simp only [resolveRefs, hmt, hmc] at hres
              exact ih tables tables2 hres
          | some mc =>
              by_cases hne : mt ≠ "" ∧ mc ≠ ""
              · simp only [resolveRefs, hmt, hmc, if_pos hne] at hres
                cases hsc : setColRef tables tid cid
                    { table_id := mt, column_id := mc, note := fr.note } with
                | none => rw [hsc] at hres; exact absurd hres (by simp)
                | some tables' =>
                    rw [hsc] at hres
                    exact forall₂_trans_imp
                      (fun (x y z : String × Table)
                        (hx : TblRel tmap cmap x y)
                        (hy : TblRel tmap cmap y z) =>
                          tblRel_trans tmap cmap hx hy)
                      (ih tables' tables2 hres)
                      (setColRef_rel tmap cmap tables tid cid
                        { table_id := mt, column_id := mc, note := fr.note }
                        tables' hsc
                        ⟨fr.table_id, dget_mem hmt⟩
                        ⟨fr.column_id, dget_mem hmc⟩)
              · simp only [resolveRefs, hmt, hmc, if_neg hne] at hres
                exact ih tables tables2 hres

theorem dupTablesSpec_ref_none (fresh : Nat → String) :
    ∀ (tbls : List (String × Table)) (ctr : Nat),
      ∀ p ∈ dupTablesSpec fresh ctr tbls, ∀ q ∈ p.2.columns,
        q.2.foreign_ref = none := by
  intro tbls
  induction tbls with
  | nil => intro ctr p hp; simp [dupTablesSpec] at hp
  | cons hd rest ih =>
      intro ctr p hp q hq
      obtain ⟨tOld, t⟩ := hd
      rw [dupTablesSpec] at hp
      rcases List.mem_cons.mp hp with h | h
      · subst h
        exact dupColsSpec_ref_none fresh t.columns (ctr + 1) q hq
      · exact ih (ctr + 1 + t.columns.length) p h q hq

theorem dupPendSpec_tid_cid (fresh : Nat → String) (tNew : String) :
    ∀ (cols : List (String × Column)) (ctr : Nat),
      ∀ e ∈ dupPendSpec fresh tNew ctr cols,
        e.1 = tNew ∧ e.2.1 ∈ dkeys (dupColsSpec fresh ctr cols) := by
  intro cols
  induction cols with
  | nil => intro ctr e he; simp [dupPendSpec] at he
  | cons hd rest ih =>
      intro ctr e he
      obtain ⟨cOld, c⟩ := hd
      rw [dupPendSpec] at he
      rcases List.mem_append.mp he with h | h
      · cases hfr : c.foreign_ref with
        | none => rw [hfr] at h; simp at h
        | some fr =>
            rw [hfr] at h
            rw [List.mem_singleton] at h
            subst h
            refine ⟨rfl, ?_⟩
            rw [dupColsSpec, mem_dkeys_cons]
            exact Or.inl rfl
      · obtain ⟨h1, h2⟩ := ih (ctr + 1) e h
        refine ⟨h1, ?_⟩
        rw [dupColsSpec, mem_dkeys_cons]
        exact Or.inr h2

theorem dupPendAll_tids (fresh : Nat → String) :
    ∀ (tbls : List (String × Table)) (ctr : Nat),
      ∀ e ∈ dupPendAll fresh ctr tbls,
        ∃ i, ctr ≤ i ∧ i < ctr + tcount tbls ∧ e.1 = fresh i := by
  intro tbls
  induction tbls with
  | nil => intro ctr e he; simp [dupPendAll] at he
  | cons hd rest ih =>
      intro ctr e he
      obtain ⟨tOld, t⟩ := hd
      rw [dupPendAll] at he
      rcases List.mem_append.mp he with h | h
      · exact ⟨ctr, le_rfl, by simp only [tcount]; omega,
          (dupPendSpec_tid_cid fresh (fresh ctr) t.columns (ctr + 1) e h).1⟩
      · obtain ⟨i, hi1, hi2, hi3⟩ := ih (ctr + 1 + t.columns.length) e h
        exact ⟨i, by omega, by simp only [tcount]; omega, hi3⟩

theorem dupPendAll_getCol (fresh : Nat → String)
    (hinj : ∀ i j, fresh i = fresh j → i = j) :
    ∀ (tbls : List (String × Table)) (ctr : Nat),
      ∀ e ∈ dupPendAll fresh ctr tbls,
        (getCol (dupTablesSpec fresh ctr tbls) e.1 e.2.1).isSome := by
  intro tbls
  induction tbls with
  | nil => intro ctr e he; simp [dupPendAll] at he
  | cons hd rest ih =>
      intro ctr e he
      obtain ⟨tOld, t⟩ := hd
      rw [dupPendAll] at he
      rcases List.mem_append.mp he with h | h
      · obtain ⟨h1, h2⟩ :=
          dupPendSpec_tid_cid fresh (fresh ctr) t.columns (ctr + 1) e h
        rw [dupTablesSpec]
        unfold getCol
        rw [h1]
        simp only [dget, if_pos rfl, Option.some_bind]
        exact (dget_isSome_iff _ _).mpr h2
      · obtain ⟨i, hi1, hi2, hi3⟩ :=
          dupPendAll_tids fresh rest (ctr + 1 + t.columns.length) e h
        have hne : fresh ctr ≠ e.1 := by
          rw [hi3]
          intro hc
          have := hinj ctr i hc
          omega
        rw [dupTablesSpec]
        unfold getCol
        simp only [dget, if_neg hne]
        exact ih (ctr + 1 + t.columns.length) e h

theorem dupPendSpec_cid_nodup (fresh : Nat → String) (tNew : String)
    (hinj : ∀ i j, fresh i = fresh j → i = j) :
    ∀ (cols : List (String × Column)) (ctr : Nat),
      ((dupPendSpec fresh tNew ctr cols).map (fun e => e.2.1)).Nodup := by
  intro cols
  induction cols with
  | nil => intro ctr; simp [dupPendSpec]
  | cons hd rest ih =>
      intro ctr
      obtain ⟨cOld, c⟩ := hd
      rw [dupPendSpec]
      cases hfr : c.foreign_ref with
      | none => simp only [List.nil_append]; exact ih (ctr + 1)
      | some fr =>
          simp only [List.singleton_append, List.map_cons, List.nodup_cons]
          refine ⟨?_, ih (ctr + 1)⟩
          intro hmem
          obtain ⟨e, he, hee⟩ := List.mem_map.mp hmem
          obtain ⟨i, hi1, hi2, hi3⟩ :=
            dupPendSpec_cids fresh tNew rest (ctr + 1) e he
          rw [hi3] at hee
          have := hinj i ctr hee
          omega

theorem dupPendAll_cid_nodup (fresh : Nat → String)
    (hinj : ∀ i j, fresh i = fresh j → i = j) :
    ∀ (tbls : List (String × Table)) (ctr : Nat),
      ((dupPendAll fresh ctr tbls).map (fun e => e.2.1)).Nodup := by
  intro tbls
  induction tbls with
  | nil => intro ctr; simp [dupPendAll]
  | cons hd rest ih =>
      intro ctr
      obtain ⟨tOld, t⟩ := hd
      rw [dupPendAll, List.map_append, List.nodup_append]
      refine ⟨dupPendSpec_cid_nodup fresh (fresh ctr) hinj t.columns
        (ctr + 1), ih (ctr + 1 + t.columns.length), ?_⟩
      intro x hx hx2
      obtain ⟨e, he, hee⟩ := List.mem_map.mp hx
      obtain ⟨e2, he2, hee2⟩ := List.mem_map.mp hx2
      obtain ⟨i, hi1, hi2, hi3⟩ :=
        dupPendSpec_cids fresh (fresh ctr) t.columns (ctr + 1) e he
      obtain ⟨j, hj1, hj2, hj3⟩ :=
        dupPendAll_cids fresh rest (ctr + 1 + t.columns.length) e2 he2
      rw [← hee2, hj3] at hee
      rw [hi3] at hee
      have := hinj i j hee
      omega

theorem dupTablesSpec_forall₂ (fresh : Nat → String) :
    ∀ (tbls : List (String × Table)) (ctr : Nat),
      List.Forall₂ (fun pN pO : String × Table =>
          pN.2.columns.length = pO.2.columns.length)
        (dupTablesSpec fresh ctr tbls) tbls := by
  intro tbls
  induction tbls with
  | nil => intro ctr; exact List.Forall₂.nil
  | cons hd rest ih =>
      intro ctr
      obtain ⟨tOld, t⟩ := hd
      rw [dupTablesSpec]
      exact List.Forall₂.cons (dupColsSpec_length fresh t.columns (ctr + 1))
        (ih (ctr + 1 + t.columns.length))

theorem dupLinksSpec_mem (fresh : Nat → String)
    (tmap cmap : List (String × String)) :
    ∀ (links : List (String × Link)) (ctr : Nat),
      ∀ e ∈ dupLinksSpec fresh tmap cmap ctr links,
        ∃ i p, p ∈ links ∧ ctr ≤ i ∧
          e = (fresh i, remapLink (fresh i) tmap cmap p.2) := by
  intro links
  induction links with
  | nil => intro ctr e he; simp [dupLinksSpec] at he
  | cons hd rest ih =>
      intro ctr e he
      obtain ⟨a, l⟩ := hd
      rw [dupLinksSpec] at he
      rcases List.mem_cons.mp he with h | h
      · exact ⟨ctr, (a, l), List.mem_cons_self _ _, le_rfl, h⟩
      · obtain ⟨i, p, hp, hi, hee⟩ := ih (ctr + 1) e h
        exact ⟨i, p, List.mem_cons_of_mem _ hp, by omega, hee⟩

/-- The fully evaluated first pass of `duplicate_database`, starting from
the empty accumulators exactly as the source does. -/
theorem dupTablesGo_full (src : Database) (fresh : Nat → String)
    (hinj : ∀ i j, fresh i = fresh j → i = j)
    (hWF : WellFormedDB src) :
    dupTablesGo fresh src.tables 1 [] [] [] [] =
      (1 + tcount src.tables, dupTmapSpec fresh 1 src.tables,
       dupCmapAll fresh 1 src.tables, dupTablesSpec fresh 1 src.tables,
       dupPendAll fresh 1 src.tables) := by
  have h := dupTablesGo_eq fresh hinj src.tables 1 [] [] [] []
    (by intro i _ hc; simp [dkeys] at hc) hWF.1
    (by intro o _ hc; simp [dkeys] at hc) hWF.2.1
    (by intro o _ hc; simp [dkeys] at hc)
  simpa using h

/-- The id maps `duplicate_database` builds, in closed form. -/
theorem duplicate_maps_eq (src : Database) (fresh : Nat → String)
    (hinj : ∀ i j, fresh i = fresh j → i = j)
    (hWF : WellFormedDB src) :
    duplicate_maps src fresh =
      (dupTmapSpec fresh 1 src.tables, dupCmapAll fresh 1 src.tables) := by
  unfold duplicate_maps
  rw [dupTablesGo_full src fresh hinj hWF]

/-- Full characterization of a successful `duplicate_database` run: the
second pass always succeeds, the result's tables refine the first-pass
copies through `TblRel`, and the links are the remapped copies. -/
theorem duplicate_database_spec (src : Database) (fresh : Nat → String)
    (hinj : ∀ i j, fresh i = fresh j → i = j)
    (hWF : WellFormedDB src) :
    ∃ tables2,
      duplicate_database src fresh = some
        { id := fresh 0, name := src.name ++ " (copy)", note := src.note,
          tables := tables2,
          links := dupLinksSpec fresh (dupTmapSpec fresh 1 src.tables)
            (dupCmapAll fresh 1 src.tables) (1 + tcount src.tables)
            src.links,
          diagram := [] } ∧
      resolveRefs (dupTmapSpec fresh 1 src.tables)
        (dupCmapAll fresh 1 src.tables) (dupPendAll fresh 1 src.tables)
        (dupTablesSpec fresh 1 src.tables) = some tables2 := by
  obtain ⟨tables2, hres⟩ := resolveRefs_total
    (dupTmapSpec fresh 1 src.tables) (dupCmapAll fresh 1 src.tables)
    (dupPendAll fresh 1 src.tables) (dupTablesSpec fresh 1 src.tables)
    (fun e he => dupPendAll_getCol fresh hinj src.tables 1 e he)
  refine ⟨tables2, ?_, hres⟩
  unfold duplicate_database
  rw [dupTablesGo_full src fresh hinj hWF]
  simp only [hres]
  rw [dupLinksGo_eq fresh _ _ hinj src.links (1 + tcount src.tables) []
    (by intro i _ hc; simp [dkeys] at hc)]
  rw [List.nil_append]

/-- The endpoint remap rule of the third pass, as a standalone function
(definitionally the computation `remapLink` performs on each of its two
endpoints). -/
def endpointVal (tmap cmap : List (String × String)) (ty idv : String) :
    String :=
  if ty = "table" then (dget tmap idv).getD idv
  else if ty = "column" then (dget cmap idv).getD idv
  else idv

theorem endpointVal_good (src : Database) (fresh : Nat → String)
    (hnotin : ∀ n, fresh n ∉ allIds src) (ty idv : String)
    (hcl : (ty = "table" ∧ idv ∈ tableIds src) ∨
           (ty = "column" ∧ idv ∈ columnIds src)) :
    (ty = "table" ∧
      endpointVal (dupTmapSpec fresh 1 src.tables)
          (dupCmapAll fresh 1 src.tables) ty idv ∈
        dkeys (dupTablesSpec fresh 1 src.tables) ∧
      endpointVal (dupTmapSpec fresh 1 src.tables)
          (dupCmapAll fresh 1 src.tables) ty idv ∉ allIds src) ∨
    (ty = "column" ∧
      endpointVal (dupTmapSpec fresh 1 src.tables)
          (dupCmapAll fresh 1 src.tables) ty idv ∈
        colKeysAll (dupTablesSpec fresh 1 src.tables) ∧
      endpointVal (dupTmapSpec fresh 1 src.tables)
          (dupCmapAll fresh 1 src.tables) ty idv ∉ allIds src) := by
  rcases hcl with ⟨hty, hid⟩ | ⟨hty, hid⟩
  · left
    have hx : idv ∈ dkeys (dupTmapSpec fresh 1 src.tables) := by
      rw [dkeys_dupTmapSpec]
      exact hid
    obtain ⟨mt, hmt⟩ :=
      Option.isSome_iff_exists.mp ((dget_isSome_iff _ _).mpr hx)
    obtain ⟨hmem, i, _, hi⟩ :=
      dupTmapSpec_values fresh src.tables 1 (idv, mt) (dget_mem hmt)
    have hval : endpointVal (dupTmapSpec fresh 1 src.tables)
        (dupCmapAll fresh 1 src.tables) ty idv = mt := by
      unfold endpointVal
      rw [if_pos hty, hmt]
      rfl
    refine ⟨hty, ?_, ?_⟩
    · rw [hval]
      exact hmem
    · rw [hval, show mt = fresh i from hi]
      exact hnotin i
  · right
    have hty' : ty ≠ "table" := by rw [hty]; decide
    have hx : idv ∈ dkeys (dupCmapAll fresh 1 src.tables) := by
      rw [dkeys_dupCmapAll]
      exact hid
    obtain ⟨mc, hmc⟩ :=
      Option.isSome_iff_exists.mp ((dget_isSome_iff _ _).mpr hx)
    obtain ⟨hmem, i, _, hi⟩ :=
      dupCmapAll_values fresh src.tables 1 (idv, mc) (dget_mem hmc)
    have hval : endpointVal (dupTmapSpec fresh 1 src.tables)
        (dupCmapAll fresh 1 src.tables) ty idv = mc := by
      unfold endpointVal
      rw [if_neg hty', if_pos hty, hmc]
      rfl
    refine ⟨hty, ?_, ?_⟩
    · rw [hval]
      exact hmem
    · rw [hval, show mc = fresh i from hi]
      exact hnotin i

/-- C1: for every well-formed database `D` with closed links, and fresh id
generation, `duplicate_database` succeeds and produces a copy with the
same number of tables, the same number of columns in each corresponding
table and the same number of links, in which every stored ForeignRef
names a table id and a column id of the copy (never an id of `D`) and
every typed link endpoint names a table or column of the copy (never an
id of `D`). -/
theorem duplicate_database_isomorphism (src : Database)
    (fresh : Nat → String) (hWF : WellFormedDB src)
    (hF : FreshFor fresh src) (hL : LinksClosed src) :
    ∃ newDb,
      duplicate_database src fresh = some newDb ∧
      newDb.tables.length = src.tables.length ∧
      List.Forall₂ (fun pN pO : String × Table =>
        pN.2.columns.length = pO.2.columns.length) newDb.tables src.tables ∧
      newDb.links.length = src.links.length ∧
      (∀ p ∈ newDb.tables, ∀ q ∈ p.2.columns, ∀ fr,
        q.2.foreign_ref = some fr →
          (fr.table_id ∈ dkeys newDb.tables ∧ fr.table_id ∉ allIds src) ∧
          (fr.column_id ∈ colKeysAll newDb.tables ∧
            fr.column_id ∉ allIds src)) ∧
      (∀ l ∈ newDb.links,
        ((l.2.from_type = "table" ∧ l.2.from_id ∈ dkeys newDb.tables ∧
            l.2.from_id ∉ allIds src) ∨
         (l.2.from_type = "column" ∧ l.2.from_id ∈ colKeysAll newDb.tables ∧
            l.2.from_id ∉ allIds src)) ∧
        ((l.2.to_type = "table" ∧ l.2.to_id ∈ dkeys newDb.tables ∧
            l.2.to_id ∉ allIds src) ∨
         (l.2.to_type = "column" ∧ l.2.to_id ∈ colKeysAll newDb.tables ∧
            l.2.to_id ∉ allIds src))) := by
  obtain ⟨hinj, hnotin, hne⟩ := hF
  obtain ⟨tables2, hdup, hres⟩ := duplicate_database_spec src fresh hinj hWF
  have hrel := resolveRefs_rel _ _ _ _ _ hres
  have hkeys : dkeys tables2 = dkeys (dupTablesSpec fresh 1 src.tables) :=
    forall₂_dkeys (fun _ _ h => h.1) hrel
  have hck : colKeysAll tables2 =
      colKeysAll (dupTablesSpec fresh 1 src.tables) :=
    tblRel_colKeys _ _ hrel
  refine ⟨_, hdup, ?_, ?_, ?_, ?_, ?_⟩
  · show tables2.length = src.tables.length
    rw [List.Forall₂.length_eq hrel, dupTablesSpec_length]
  · show List.Forall₂ _ tables2 src.tables
    exact forall₂_trans_imp
      (fun (x y z : String × Table)
        (hx : TblRel (dupTmapSpec fresh 1 src.tables)
          (dupCmapAll fresh 1 src.tables) x y)
        (hy : y.2.columns.length = z.2.columns.length) =>
          (List.Forall₂.length_eq hx.2).trans hy)
      hrel (dupTablesSpec_forall₂ fresh src.tables 1)
  · show (dupLinksSpec fresh (dupTmapSpec fresh 1 src.tables)
      (dupCmapAll fresh 1 src.tables) (1 + tcount src.tables)
      src.links).length = src.links.length
    exact dupLinksSpec_length fresh _ _ src.links _
  · show ∀ p ∈ tables2, ∀ q ∈ p.2.columns, ∀ fr,
      q.2.foreign_ref = some fr →
        (fr.table_id ∈ dkeys tables2 ∧ fr.table_id ∉ allIds src) ∧
        (fr.column_id ∈ colKeysAll tables2 ∧ fr.column_id ∉ allIds src)
    intro p hp q hq fr hfr
    obtain ⟨pO, hpO, hrelp⟩ := forall₂_mem_left hrel p hp
    obtain ⟨qO, hqO, hrelq⟩ := forall₂_mem_left hrelp.2 q hq
    rcases hrelq.2 with heq | ⟨fr', hmt, hmc, hset⟩
    · rw [heq, dupTablesSpec_ref_none fresh src.tables 1 pO hpO qO hqO]
        at hfr
      exact Option.noConfusion hfr
    · rw [hset] at hfr
      have hfr2 : some fr' = some fr := hfr
      injection hfr2 with hfr3
      subst hfr3
      obtain ⟨o1, ho1⟩ := hmt
      obtain ⟨o2, ho2⟩ := hmc
      obtain ⟨hm1, i1, _, hi1⟩ :=
        dupTmapSpec_values fresh src.tables 1 (o1, fr'.table_id) ho1
      obtain ⟨hm2, i2, _, hi2⟩ :=
        dupCmapAll_values fresh src.tables 1 (o2, fr'.column_id) ho2
      refine ⟨⟨?_, ?_⟩, ?_, ?_⟩
      · rw [hkeys]
        exact hm1
      · rw [show fr'.table_id = fresh i1 from hi1]
        exact hnotin i1
      · rw [hck]
        exact hm2
      · rw [show fr'.column_id = fresh i2 from hi2]
        exact hnotin i2
  · show ∀ l ∈ dupLinksSpec fresh (dupTmapSpec fresh 1 src.tables)
      (dupCmapAll fresh 1 src.tables) (1 + tcount src.tables) src.links,
        ((l.2.from_type = "table" ∧ l.2.from_id ∈ dkeys tables2 ∧
            l.2.from_id ∉ allIds src) ∨
         (l.2.from_type = "column" ∧ l.2.from_id ∈ colKeysAll tables2 ∧
            l.2.from_id ∉ allIds src)) ∧
        ((l.2.to_type = "table" ∧ l.2.to_id ∈ dkeys tables2 ∧
            l.2.to_id ∉ allIds src) ∨
         (l.2.to_type = "column" ∧ l.2.to_id ∈ colKeysAll tables2 ∧
            l.2.to_id ∉ allIds src))
    intro l hl
    obtain ⟨i, pl, hpl, _, hle⟩ :=
      dupLinksSpec_mem fresh _ _ src.links _ l hl
    subst hle
    obtain ⟨hfrom, hto⟩ := hL pl hpl
    constructor
    · rcases endpointVal_good src fresh hnotin pl.2.from_type pl.2.from_id
        hfrom with ⟨hty, hmem, hnot⟩ | ⟨hty, hmem, hnot⟩
      · left
        refine ⟨hty, ?_, hnot⟩
        rw [hkeys]
        exact hmem
      · right
        refine ⟨hty, ?_, hnot⟩
        rw [hck]
        exact hmem
    · rcases endpointVal_good src fresh hnotin pl.2.to_type pl.2.to_id
        hto with ⟨hty, hmem, hnot⟩ | ⟨hty, hmem, hnot⟩
      · left
        refine ⟨hty, ?_, hnot⟩
        rw [hkeys]
        exact hmem
      · right
        refine ⟨hty, ?_, hnot⟩
        rw [hck]
        exact hmem

/-- C7: when a source column's ForeignRef fails to map through either
old→new id map (a dangling or garbage reference), duplication still
succeeds and the copied column — located through the id maps — carries
`foreign_ref = none`. -/
theorem duplicate_dangling_ref_null (src : Database) (fresh : Nat → String)
    (hWF : WellFormedDB src) (hinj : ∀ i j, fresh i = fresh j → i = j)
    (p : String × Table) (hp : p ∈ src.tables)
    (q : String × Column) (hq : q ∈ p.2.columns)
    (fr : ForeignRef) (hfr : q.2.foreign_ref = some fr)
    (hd : dget (duplicate_maps src fresh).1 fr.table_id = none ∨
          dget (duplicate_maps src fresh).2 fr.column_id = none) :
    ∃ newDb m n,
      duplicate_database src fresh = some newDb ∧
      dget (duplicate_maps src fresh).1 p.1 = some m ∧
      dget (duplicate_maps src fresh).2 q.1 = some n ∧
      getCol newDb.tables m n = some (copyColumn n q.2) ∧
      (copyColumn n q.2).foreign_ref = none := by
  have hmaps := duplicate_maps_eq src fresh hinj hWF
  obtain ⟨tables2, hdup, hres⟩ := duplicate_database_spec src fresh hinj hWF
  obtain ⟨m, tN, htm, htN, _, hcols⟩ :=
    dupTablesSpec_corr fresh hinj src.tables 1 hWF.1 hWF.2.1 p hp
  obtain ⟨n, hcm, hcN, _, hpend⟩ := hcols q hq
  rw [hmaps] at hd
  refine ⟨_, m, n, hdup, ?_, ?_, ?_, rfl⟩
  · rw [hmaps]
    exact htm
  · rw [hmaps]
    exact hcm
  · show getCol tables2 m n = some (copyColumn n q.2)
    have hpres := resolveRefs_preserved
      (dupTmapSpec fresh 1 src.tables) (dupCmapAll fresh 1 src.tables)
      (dupPendAll fresh 1 src.tables) (dupTablesSpec fresh 1 src.tables)
      tables2 m n hres ?_
    · rw [hpres]
      unfold getCol
      rw [mem_dget htN (dupTablesSpec_keys_nodup fresh hinj src.tables 1)]
      simp only [Option.some_bind]
      exact hcN
    · intro tid' fr' hm
      have hone : (tid', n, fr') = (m, n, fr) :=
        eq_of_nodup_map (fun e : String × String × ForeignRef => e.2.1)
          (dupPendAll fresh 1 src.tables)
          (dupPendAll_cid_nodup fresh hinj src.tables 1)
          (tid', n, fr') hm (m, n, fr) (hpend fr hfr) rfl
      have hfr' : fr' = fr :=
        congrArg (fun e : String × String × ForeignRef => e.2.2) hone
      rw [hfr']
      exact hd

/-- C10: duplicating database `db_id` through the API appends exactly one
new database entry under the fresh id, leaves every pre-existing entry —
the source included — bound to the same unchanged value, and grows the
state by exactly one entry. -/
theorem duplicate_database_frame (dbs : List (String × Database))
    (db_id : String) (src : Database) (fresh : Nat → String)
    (hsrc : dget dbs db_id = some src) (hWF : WellFormedDB src)
    (hinj : ∀ i j, fresh i = fresh j → i = j)
    (hfree : fresh 0 ∉ dkeys dbs) :
    ∃ newDb,
      duplicate_database_api dbs db_id fresh =
        some (Except.ok (dbs ++ [(fresh 0, newDb)])) ∧
      (∀ k ∈ dkeys dbs, dget (dbs ++ [(fresh 0, newDb)]) k = dget dbs k) ∧
      (dbs ++ [(fresh 0, newDb)]).length = dbs.length + 1 ∧
      dget (dbs ++ [(fresh 0, newDb)]) db_id = some src := by
  obtain ⟨tables2, hdup, _⟩ := duplicate_database_spec src fresh hinj hWF
  refine ⟨{ id := fresh 0, name := src.name ++ " (copy)", note := src.note, tables := tables2, links := dupLinksSpec fresh (dupTmapSpec fresh 1 src.tables) (dupCmapAll fresh 1 src.tables) (1 + tcount src.tables) src.links, diagram := [] }, ?_, ?_, ?_, ?_⟩
  · simp only [duplicate_database_api, hsrc, hdup, Option.map_some']
    rw [dset_eq_append dbs (fresh 0) _ hfree]
  · intro k hk
    exact dget_append_left dbs _ k hk
  · simp
  · rw [dget_append_left dbs _ db_id
      ((dget_isSome_iff dbs db_id).mp (by rw [hsrc]; rfl))]
    exact hsrc

/-- An id generator whose values ("x", "xx", "xxx", …) are pairwise
distinct, non-empty, and disjoint from any id that does not start with
the letter x. -/
def freshX (n : Nat) : String := String.mk ('x' :: List.replicate n 'x')

theorem freshX_inj : ∀ i j, freshX i = freshX j → i = j := by
  intro i j h
  have h2 : ('x' :: List.replicate i 'x') = ('x' :: List.replicate j 'x') :=
    congrArg String.data h
  injection h2 with _ h3
  have h4 := congrArg List.length h3
  simpa using h4

theorem freshX_ne_of_head (n : Nat) (s : String)
    (h : s.data.head? ≠ some 'x') : freshX n ≠ s :=
  fun hc => h (by rw [← hc]; rfl)

theorem freshX_notin (n : Nat) (l : List String)
    (hl : ∀ s ∈ l, s.data.head? ≠ some 'x') : freshX n ∉ l :=
  fun h => hl (freshX n) h rfl

/-- A two-column table whose second column carries a dangling foreign
ref, plus one table→column link: the shared duplication fixture. -/
def dupWcol1 : Column := { id := "c1", name := "a" }

def dupWcol2 : Column :=
  { id := "c2", name := "b",
    foreign_ref := some { table_id := "zz", column_id := "ww" } }

def dupWtbl : Table :=
  { id := "t1", name := "T",
    columns := [("c1", dupWcol1), ("c2", dupWcol2)] }

def dupWlink : Link :=
  { id := "l1", from_type := "table", from_id := "t1",
    to_type := "column", to_id := "c1" }

def dupWdb : Database :=
  { id := "d1", name := "D", tables := [("t1", dupWtbl)],
    links := [("l1", dupWlink)] }

def dupWdbs : List (String × Database) := [("d1", dupWdb)]

theorem freshX_fresh_dupWdb : FreshFor freshX dupWdb := by
  refine ⟨freshX_inj, ?_, ?_⟩
  · intro n
    exact freshX_notin n (allIds dupWdb) (by decide)
  · intro n
    exact freshX_ne_of_head n "" (by decide)

theorem duplicate_database_isomorphism_witness :
    ∃ newDb,
      duplicate_database dupWdb freshX = some newDb ∧
      newDb.tables.length = dupWdb.tables.length ∧
      List.Forall₂ (fun pN pO : String × Table =>
        pN.2.columns.length = pO.2.columns.length) newDb.tables
        dupWdb.tables ∧
      newDb.links.length = dupWdb.links.length ∧
      (∀ p ∈ newDb.tables, ∀ q ∈ p.2.columns, ∀ fr,
        q.2.foreign_ref = some fr →
          (fr.table_id ∈ dkeys newDb.tables ∧
            fr.table_id ∉ allIds dupWdb) ∧
          (fr.column_id ∈ colKeysAll newDb.tables ∧
            fr.column_id ∉ allIds dupWdb)) ∧
      (∀ l ∈ newDb.links,
        ((l.2.from_type = "table" ∧ l.2.from_id ∈ dkeys newDb.tables ∧
            l.2.from_id ∉ allIds dupWdb) ∨
         (l.2.from_type = "column" ∧
            l.2.from_id ∈ colKeysAll newDb.tables ∧
            l.2.from_id ∉ allIds dupWdb)) ∧
        ((l.2.to_type = "table" ∧ l.2.to_id ∈ dkeys newDb.tables ∧
            l.2.to_id ∉ allIds dupWdb) ∨
         (l.2.to_type = "column" ∧ l.2.to_id ∈ colKeysAll newDb.tables ∧
            l.2.to_id ∉ allIds dupWdb))) :=
  duplicate_database_isomorphism dupWdb freshX
    (by unfold WellFormedDB; decide) freshX_fresh_dupWdb
    (by unfold LinksClosed; decide)

theorem duplicate_dangling_ref_null_witness :
    ∃ newDb m n,
      duplicate_database dupWdb freshX = some newDb ∧
      dget (duplicate_maps dupWdb freshX).1 "t1" = some m ∧
      dget (duplicate_maps dupWdb freshX).2 "c2" = some n ∧
      getCol newDb.tables m n = some (copyColumn n dupWcol2) ∧
      (copyColumn n dupWcol2).foreign_ref = none :=
  duplicate_dangling_ref_null dupWdb freshX
    (by unfold WellFormedDB; decide) freshX_inj
    ("t1", dupWtbl) (by decide) ("c2", dupWcol2) (by decide)
    { table_id := "zz", column_id := "ww", note := "" } rfl
    (Or.inl (by decide))

theorem duplicate_database_frame_witness :
    ∃ newDb,
      duplicate_database_api dupWdbs "d1" freshX =
        some (Except.ok (dupWdbs ++ [(freshX 0, newDb)])) ∧
      (∀ k ∈ dkeys dupWdbs,
        dget (dupWdbs ++ [(freshX 0, newDb)]) k = dget dupWdbs k) ∧
      (dupWdbs ++ [(freshX 0, newDb)]).length = dupWdbs.length + 1 ∧
      dget (dupWdbs ++ [(freshX 0, newDb)]) "d1" = some dupWdb :=
  duplicate_database_frame dupWdbs "d1" dupWdb freshX (by decide)
    (by unfold WellFormedDB; decide) freshX_inj
    (freshX_notin 0 (dkeys dupWdbs) (by decide))

end Valorstone
